/-
  Verification of the StreetMap elevation pipeline
  (Source/StreetMapImporting/GISUtils/Elevation.cpp).

  Shallow embedding: machine floats are modelled by exact rationals, with a
  small IEEE-special-value algebra (FVal) where the claims hinge on division
  by zero; fallible code returns Option; the cooperative download loop is
  fuel-driven.  External collaborators that are not part of src/
  (FTiledMap, FSpatialReferenceSystem, FPolygon2DView) are modelled from the
  spec and marked as such in their doc comments.
-/
import Mathlib

namespace StreetMapVerify

/-! ## Acquisition scheduler (FCachedElevationFile / FElevationModel::LoadElevationData)

A tile acquisition is a cooperative state machine (Elevation.cpp lines 61-287).
The environment behaviour of one tile (disk cache outcome, HTTP outcome and
latency) is pre-recorded in a TileScript; the Tick translation below follows
FCachedElevationFile::Tick branch for branch. -/

/-- Pre-recorded environment behaviour of one tile acquisition:
a valid cache hit (UnpackElevation succeeds on the cached bytes),
ProcessRequest returning false, or a download that resolves after a number
of polling rounds with success (fetch and decode ok) or failure
(connection error, timeout, or decode failure). -/
inductive TileScript where
  | cacheHit : TileScript
  | processFail : TileScript
  | download (rounds : Nat) (ok : Bool) : TileScript
deriving DecidableEq

/-- One FCachedElevationFile: tile key (X, Y, Z), the scripted environment,
and the state flags of the C++ object.  The counters ticks and cancels
record how often Tick() and CancelRequest() were invoked on this tile. -/
structure Tile where
  x : Int
  y : Int
  z : Nat
  script : TileScript
  wasInitialized : Bool := false
  wasDownloadSuccessful : Bool := false
  failed : Bool := false
  httpValid : Bool := false
  remaining : Nat := 0
  ticks : Nat := 0
  cancels : Nat := 0
deriving DecidableEq

/-- FCachedElevationFile::MaxNumPendingDownloads. -/
def maxNumPendingDownloads : Nat := 10

/-- FCachedElevationFile::HasFinished. -/
def Tile.hasFinished (t : Tile) : Bool :=
  t.wasDownloadSuccessful || t.failed

/-- FCachedElevationFile::Succeeded. -/
def Tile.succeeded (t : Tile) : Bool :=
  t.wasDownloadSuccessful

/-- The (X, Y, Z) lookup key of a tile. -/
def Tile.key (t : Tile) : Int × Int × Nat :=
  (t.x, t.y, t.z)

/-- FCachedElevationFile::Tick, threading the static NumPendingDownloads
counter g through the call.  Uninitialized tiles wait while the global
pending count is at the cap; Initialize either finishes from cache,
fails ProcessRequest, or starts a download; a running download resolves
according to its script after the scripted number of polling rounds. -/
def Tile.tickOnce (g : Nat) (t : Tile) : Nat × Tile :=
  let t1 := { t with ticks := t.ticks + 1 }
  if ¬ t1.wasInitialized then
    if maxNumPendingDownloads ≤ g then
      (g, t1)
    else
      match t1.script with
      | .cacheHit =>
          (g, { t1 with wasInitialized := true, wasDownloadSuccessful := true })
      | .processFail =>
          (g, { t1 with wasInitialized := true, httpValid := true, failed := true })
      | .download n _ =>
          (g + 1, { t1 with wasInitialized := true, httpValid := true, remaining := n })
  else if t1.wasDownloadSuccessful || t1.failed then
    (g, t1)
  else
    match t1.script with
    | .download _ ok =>
        if t1.remaining = 0 then
          (g - 1, if ok then { t1 with wasDownloadSuccessful := true }
                  else { t1 with failed := true })
        else
          (g, { t1 with remaining := t1.remaining - 1 })
    | _ => (g, t1)

/-- FCachedElevationFile::CancelRequest: mark the tile failed and, when an
HTTP request object exists, decrement the global pending counter. -/
def Tile.cancelRequest (g : Nat) (t : Tile) : Nat × Tile :=
  let t1 := { t with failed := true, cancels := t.cancels + 1 }
  if t1.httpValid then (g - 1, t1) else (g, t1)

/-- Issue CancelRequest to every tile of a list (the cancellation loop in
LoadElevationData, lines 393-396). -/
def cancelAll (g : Nat) : List Tile → Nat × List Tile
  | [] => (g, [])
  | t :: rest =>
      let p := Tile.cancelRequest g t
      let q := cancelAll p.1 rest
      (q.1, p.2 :: q.2)

/-- Result of one round of the download loop (lines 374-401): the new global
counter, the tiles still pending in order, the first tile observed finished
this round (paired with its Succeeded() value) if any, and the tiles that
were issued a cancel request because the finisher had failed. -/
structure RoundResult where
  g : Nat
  pending : List Tile
  finisher : Option (Tile × Bool)
  cancelled : List Tile
deriving DecidableEq

/-- One round of the for-loop over FilesToDownload: tiles are ticked in
insertion order; the first tile observed finished ends the round — it is
removed, and when it did not succeed every remaining pending tile is
cancelled and the pending set emptied. -/
def processRound (g : Nat) : List Tile → RoundResult
  | [] => { g := g, pending := [], finisher := none, cancelled := [] }
  | t :: rest =>
      let p := Tile.tickOnce g t
      if p.2.hasFinished then
        if p.2.succeeded then
          { g := p.1, pending := rest, finisher := some (p.2, true), cancelled := [] }
        else
          let c := cancelAll p.1 rest
          { g := c.1, pending := [], finisher := some (p.2, false), cancelled := c.2 }
      else
        let r := processRound p.1 rest
        match r.finisher with
        | some (ft, false) =>
            let q := Tile.cancelRequest r.g p.2
            { g := q.1, pending := [], finisher := some (ft, false),
              cancelled := q.2 :: r.cancelled }
        | _ =>
            { g := r.g, pending := p.2 :: r.pending, finisher := r.finisher,
              cancelled := r.cancelled }

/-- Scheduler state of LoadElevationData: the NumPendingDownloads counter,
FilesToDownload, FilesDownloaded, plus the tiles that were cancelled and the
tiles that finished in failure (for bookkeeping of the claims). -/
structure SchedState where
  g : Nat
  pending : List Tile
  downloaded : List Tile
  cancelled : List Tile
  failedTiles : List Tile
deriving DecidableEq

/-- The while-loop of LoadElevationData (lines 364-412), fuel-driven.
Each iteration first exits if the pending set is empty, then polls the
user-cancel flag, then runs one round.  Returns none when fuel runs out. -/
def loadLoop (uc : Nat → Bool) : Nat → Nat → SchedState → Option SchedState
  | 0, _, _ => none
  | fuel + 1, round, st =>
      if st.pending.isEmpty then some st
      else if uc round then some st
      else
        let r := processRound st.g st.pending
        match r.finisher with
        | none =>
            loadLoop uc fuel (round + 1) { st with g := r.g, pending := r.pending }
        | some (t, true) =>
            loadLoop uc fuel (round + 1)
              { st with g := r.g, pending := r.pending,
                        downloaded := st.downloaded ++ [t] }
        | some (t, false) =>
            loadLoop uc fuel (round + 1)
              { st with g := r.g, pending := [],
                        cancelled := st.cancelled ++ r.cancelled,
                        failedTiles := st.failedTiles ++ [t] }

/-! ## Tiled map and projection collaborators, tile selection, LoadElevationData -/

/-- Modelled from the spec: FTiledMap (TiledMap.h is not under src/).  The
spec describes a power-of-two tiling pyramid over the WebMercator square;
GetTileXY is modelled as flooring an affine map of the WebMercator
coordinate onto the tile grid of the level, clamped into the valid index
range, with the y tile index growing southwards (decreasing WebMercator y).
bound is the half-extent of the WebMercator square. -/
structure TiledMapM where
  numLevels : Nat
  tileWidth : Int
  tileHeight : Int
  bound : ℚ

/-- Clamp a tile index into the range 0 .. n-1. -/
def clampTile (n v : Int) : Int := max 0 (min v (n - 1))

/-- Modelled from the spec: x component of FTiledMap::GetTileXY. -/
def TiledMapM.getTileX (tm : TiledMapM) (x : ℚ) (level : Nat) : Int :=
  clampTile (2 ^ level) ⌊(x + tm.bound) / (2 * tm.bound) * ((2 : ℚ) ^ level)⌋

/-- Modelled from the spec: y component of FTiledMap::GetTileXY. -/
def TiledMapM.getTileY (tm : TiledMapM) (y : ℚ) (level : Nat) : Int :=
  clampTile (2 ^ level) ⌊(tm.bound - y) / (2 * tm.bound) * ((2 : ℚ) ^ level)⌋

/-- Modelled from the spec: FTiledMap::GetTileXY. -/
def TiledMapM.getTileXY (tm : TiledMapM) (x y : ℚ) (level : Nat) : Int × Int :=
  (tm.getTileX x level, tm.getTileY y level)

/-- FMath::RoundToInt: round half away from ... UE rounds half up
(FloorToInt(F + 0.5)). -/
def roundToInt (q : ℚ) : Int := ⌊q + 1 / 2⌋

/-- FMath::RoundUpToPowerOfTwo on a nonnegative value. -/
def roundUpToPowerOfTwo (n : Int) : Int := 2 ^ Nat.clog 2 n.toNat

/-- FMath::DivideAndRoundUp (used with positive operands). -/
def divideAndRoundUp (a b : Int) : Int := (a + b - 1) / b

/-- GetNumVerticesForRadius (Elevation.cpp lines 289-295): returns the
half side length of the vertex grid and the subsection size in quads. -/
def getNumVerticesForRadius (radius quadSize : ℚ) : Int × Int :=
  let size := roundToInt (radius / quadSize)
  let subsectionSizeQuads := roundUpToPowerOfTwo size / 16 - 1
  (divideAndRoundUp size subsectionSizeQuads * subsectionSizeQuads, subsectionSizeQuads)

/-- The list lo, lo+1, ..., hi of integers. -/
def intRange (lo hi : Int) : List Int :=
  (List.range (hi + 1 - lo).toNat).map (fun (i : Nat) => lo + (i : Int))

/-- The set of required tile keys computed by LoadElevationData step 1
(lines 341-359): corner tiles of the requested WebMercator box at the
highest zoom level, ordered, padded by one tile on every side and clamped
to the valid index range; tiles are enumerated row by row. -/
def requiredTiles (tm : TiledMapM) (west south east north : ℚ) : List (Int × Int) :=
  let levelIndex := tm.numLevels - 1
  let numTiles : Int := 2 ^ levelIndex
  let sw := tm.getTileXY west south levelIndex
  let ne := tm.getTileXY east north levelIndex
  let minX := max (min sw.1 ne.1 - 1) 0
  let minY := max (min sw.2 ne.2 - 1) 0
  let maxX := min (max sw.1 ne.1 + 1) (numTiles - 1)
  let maxY := min (max sw.2 ne.2 + 1) (numTiles - 1)
  (intRange minY maxY).flatMap (fun ty => (intRange minX maxX).map (fun tx => (tx, ty)))

/-- The tile keys LoadElevationData will request for the given build
settings, or the empty list when a corner projection fails.  The corners
are the SouthWest (-FinalRadius, FinalRadius) and NorthEast
(FinalRadius, -FinalRadius) vertex locations (lines 329-344). -/
def requiredKeys (tm : TiledMapM) (srs : ℚ × ℚ → Option (ℚ × ℚ))
    (radius quadSize : ℚ) : List (Int × Int) :=
  let numVertices := (getNumVerticesForRadius radius quadSize).1
  let finalRadius := (numVertices : ℚ) * quadSize
  match srs (-finalRadius, finalRadius), srs (finalRadius, -finalRadius) with
  | some ws, some en => requiredTiles tm ws.1 ws.2 en.1 en.2
  | _, _ => []

/-- FElevationModel::LoadElevationData (lines 318-421).  The projection
collaborator srs models FSpatialReferenceSystem::ToEPSG3857
(SpatialReferenceSystem.h is not under src/) as an opaque partial map from
local coordinates to WebMercator.  The per-tile environment is given by
script, the user-cancel flag by uc, and the loop runs on fuel.  Returns
none when fuel runs out, otherwise the returned Bool is the success value
of LoadElevationData (false when the corner projections fail or when fewer
tiles were downloaded than required). -/
def loadElevationDataM (tm : TiledMapM) (srs : ℚ × ℚ → Option (ℚ × ℚ))
    (radius quadSize : ℚ) (script : Int × Int → TileScript)
    (uc : Nat → Bool) (fuel : Nat) : Option (Bool × SchedState) :=
  let numVertices := (getNumVerticesForRadius radius quadSize).1
  let finalRadius := (numVertices : ℚ) * quadSize
  match srs (-finalRadius, finalRadius), srs (finalRadius, -finalRadius) with
  | some _, some _ =>
      let levelIndex := tm.numLevels - 1
      let keys := requiredKeys tm srs radius quadSize
      let tiles := keys.map (fun k => ({ x := k.1, y := k.2, z := levelIndex,
                                         script := script k } : Tile))
      match loadLoop uc fuel 0
          { g := 0, pending := tiles, downloaded := [], cancelled := [],
            failedTiles := [] } with
      | none => none
      | some st => some (decide (tiles.length ≤ st.downloaded.length), st)
  | _, _ =>
      some (false, { g := 0, pending := [], downloaded := [], cancelled := [],
                     failedTiles := [] })

/-- FElevationModel::GetTile (lines 579-589): linear search of the
downloaded tiles for a matching key; none models the nullptr return. -/
def getTileM (files : List Tile) (xy : Int × Int) (levelIndex : Nat) : Option Tile :=
  files.find? (fun t => t.x == xy.1 && t.y == xy.2 && t.z == levelIndex)

/-! ## Elevation decoding (FCachedElevationFile::UnpackElevation, lines 78-133)

Floats are modelled by exact rationals: every quantity appearing here
(R*256 + G + B/256, the 32768 offset, min and max) is a dyadic rational
representable exactly in single precision, so the model agrees with the
float code on these paths. -/

/-- ERGBFormat of the image wrapper. -/
inductive RGBFormatM where
  | rgba : RGBFormatM
  | bgra : RGBFormatM
  | gray : RGBFormatM
deriving DecidableEq

/-- The decoded-image view offered by IImageWrapper: whether SetCompressed
accepted the buffer, the reported bit depth, format and dimensions, whether
GetRaw produced pixel data, and the RGBA bytes per pixel in row-major
order. -/
structure PngImage where
  compressedOk : Bool
  bitDepth : Int
  format : RGBFormatM
  width : Int
  height : Int
  rawOk : Bool
  pixels : List (Nat × Nat × Nat × Nat)
deriving DecidableEq

/-- TNumericLimits of float: Max(), the largest finite single-precision
value, used to initialise ElevationMin. -/
def floatMax : ℚ := 2 ^ 128 - 2 ^ 104

/-- TNumericLimits of float: Lowest(), used to initialise ElevationMax. -/
def floatLowest : ℚ := -(2 ^ 128 - 2 ^ 104)

/-- The per-pixel decode loop (lines 110-126): unpack R*256 + G + B/256,
validity test 0 < value < 41768, offset valid samples by -32768 and track
their min and max, store invalid samples unshifted. -/
def unpackPixels : List (Nat × Nat × Nat × Nat) → List ℚ × ℚ × ℚ
  | [] => ([], floatMax, floatLowest)
  | (r, g, b, _) :: rest =>
      let elevationValue : ℚ := r * 256 + g + b / 256
      let rec_ := unpackPixels rest
      if 0 < elevationValue ∧ elevationValue < 41768 then
        let shifted := elevationValue - 32768
        (shifted :: rec_.1, min rec_.2.1 shifted, max rec_.2.2 shifted)
      else
        (elevationValue :: rec_.1, rec_.2.1, rec_.2.2)

/-- FCachedElevationFile::UnpackElevation: returns the Bool result together
with the Elevation array and the tile ElevationMin/ElevationMax.  The
elevation array stays empty on every failure path and also when GetRaw
fails (the C++ leaves the member array unpopulated there). -/
def unpackElevation (tileWidth tileHeight : Int) (img : PngImage) :
    Bool × List ℚ × ℚ × ℚ :=
  if img.compressedOk then
    if img.width ≠ tileWidth ∨ img.height ≠ tileHeight then
      (false, [], floatMax, floatLowest)
    else if img.format ≠ RGBFormatM.rgba ∨ img.bitDepth ≠ 8 then
      (false, [], floatMax, floatLowest)
    else if img.rawOk then
      (true, unpackPixels img.pixels)
    else
      (true, [], floatMax, floatLowest)
  else
    (false, [], floatMax, floatLowest)

/-! ## Float specials and quantization (FElevationModel::ReprojectData)

The degenerate-range claim is about IEEE float division by zero, so the
scale and quantization expressions are evaluated in a small algebra of
float values: exact rationals extended with the infinities and NaN,
following the IEEE special-value rules for subtraction, multiplication
and division.  Rounding of finite intermediate results is not modelled;
none of the settled claims depends on it. -/

/-- A single-precision float value: a finite (exact) rational, an
infinity, or NaN. -/
inductive FVal where
  | fin (q : ℚ) : FVal
  | inf : FVal
  | ninf : FVal
  | nan : FVal
deriving DecidableEq

/-- IEEE subtraction on float values (finite arithmetic kept exact). -/
def FVal.sub : FVal → FVal → FVal
  | .fin a, .fin b => .fin (a - b)
  | .fin _, .inf => .ninf
  | .fin _, .ninf => .inf
  | .inf, .fin _ => .inf
  | .ninf, .fin _ => .ninf
  | .inf, .ninf => .inf
  | .ninf, .inf => .ninf
  | .inf, .inf => .nan
  | .ninf, .ninf => .nan
  | .nan, _ => .nan
  | _, .nan => .nan

/-- IEEE multiplication on float values (finite arithmetic kept exact);
zero times an infinity is NaN. -/
def FVal.mul : FVal → FVal → FVal
  | .fin a, .fin b => .fin (a * b)
  | .fin a, .inf => if a = 0 then .nan else if 0 < a then .inf else .ninf
  | .fin a, .ninf => if a = 0 then .nan else if 0 < a then .ninf else .inf
  | .inf, .fin b => if b = 0 then .nan else if 0 < b then .inf else .ninf
  | .ninf, .fin b => if b = 0 then .nan else if 0 < b then .ninf else .inf
  | .inf, .inf => .inf
  | .inf, .ninf => .ninf
  | .ninf, .inf => .ninf
  | .ninf, .ninf => .inf
  | .nan, _ => .nan
  | _, .nan => .nan

/-- IEEE division on float values (finite arithmetic kept exact); a
nonzero finite value divided by zero is a signed infinity, zero divided
by zero is NaN. -/
def FVal.div : FVal → FVal → FVal
  | .fin a, .fin b =>
      if b = 0 then (if a = 0 then .nan else if 0 < a then .inf else .ninf)
      else .fin (a / b)
  | .fin _, .inf => .fin 0
  | .fin _, .ninf => .fin 0
  | .inf, .fin b => if 0 ≤ b then .inf else .ninf
  | .ninf, .fin b => if 0 ≤ b then .ninf else .inf
  | .inf, .inf => .nan
  | .inf, .ninf => .nan
  | .ninf, .inf => .nan
  | .ninf, .ninf => .nan
  | .nan, _ => .nan
  | _, .nan => .nan

/-- FMath::RoundToInt on a float value: defined only for finite inputs;
rounding NaN or an infinity to int is not a defined value (none). -/
def roundToIntF : FVal → Option Int
  | .fin q => some ⌊q + 1 / 2⌋
  | _ => none

/-- The (uint16) cast of an int32 value: reduction modulo 2^16. -/
def toUInt16 (i : Int) : Nat := (i % 65536).toNat

/-- ElevationScale (lines 511-512): 65535 / (ElevationMax - ElevationMin),
evaluated in float arithmetic with no guard on a degenerate range. -/
def elevationScale (elevationMin elevationMax : ℚ) : FVal :=
  FVal.div (.fin 65535) (FVal.sub (.fin elevationMax) (.fin elevationMin))

/-- The quantization of one sampled elevation value (lines 542-544):
(ElevationValue - ElevationMin) * ElevationScale, rounded to int and cast
to uint16; none when the float expression has no defined integer value. -/
def quantizeElevation (elevationMin elevationMax e : ℚ) : Option Nat :=
  match roundToIntF (FVal.mul (FVal.sub (.fin e) (.fin elevationMin))
      (elevationScale elevationMin elevationMax)) with
  | some i => some (toUInt16 i)
  | none => none

/-! ## Per-cell reprojection (lines 519-550)

The projection of the cell is an Option of a tile key and a fractional
pixel coordinate; the Lanczos sampler (SampleElevationLanczos) is passed
as an opaque function since no settled claim depends on the sampled value
(its definition on reals uses the transcendental sine).  The outer Option
models the unguarded dereference of GetTile: none is the crash when the
lookup returns nullptr. -/

/-- The result of GetTileXY with pixel output for one grid cell. -/
structure ProjHit where
  tileXY : Int × Int
  pixel : ℚ × ℚ
deriving DecidableEq

/-- The body of the double loop of ReprojectData for one output cell:
start from the neutral sentinel 32768; when the projection succeeds the
tile is looked up and dereferenced (crash = none when absent), and the
cell is sampled and quantized only when the pixel is at least 2 pixels
from the low edges and more than 3 from the high edges. -/
def reprojectCell (tileWidth tileHeight : Int) (elevationMin elevationMax : ℚ)
    (hasTile : Int × Int → Bool) (sample : ProjHit → ℚ)
    (proj : Option ProjHit) : Option (Option Nat) :=
  match proj with
  | none => some (some 32768)
  | some hit =>
      if hasTile hit.tileXY then
        if 2 ≤ hit.pixel.1 ∧ 2 ≤ hit.pixel.2 ∧
            hit.pixel.1 < (tileWidth : ℚ) - 3 ∧ hit.pixel.2 < (tileHeight : ℚ) - 3 then
          some (quantizeElevation elevationMin elevationMax (sample hit))
        else
          some (some 32768)
      else
        none

/-- The claim notion for C7: the fractional pixel location lies strictly
within 2 pixels of one of the four tile edges (the tile spanning pixel
coordinates 0 to width and 0 to height). -/
def withinTwoOfEdge (tileWidth tileHeight : Int) (p : ℚ × ℚ) : Prop :=
  p.1 < 2 ∨ (tileWidth : ℚ) - 2 < p.1 ∨ p.2 < 2 ∨ (tileHeight : ℚ) - 2 < p.2

/-! ## Blend-weight rasterization (CreateLandscape, lines 656-756)

Each layer weight map is a function from pixel index to the stored byte.
FPolygon2DView (Polygon2DView.h is not under src/) is modelled from the
spec: the collaborator computes the squared point-to-boundary distance and
an inside flag.  The model carries the nonnegative distance itself, whose
square the source consumes as ComputeSquareDistance and whose value equals
FMath::Sqrt of that square; the polygon bounding box is carried already
transformed into blendweight/vertex space, absorbing the opaque engine
transform TransformLocal applied on lines 696-697. -/

/-- Modelled from the spec: one closed polygon as seen by the rasterizer —
its axis-aligned bounds in vertex space and, per query point, the inside
flag and the (nonnegative) distance to the polygon boundary whose square
ComputeSquareDistance returns. -/
structure PolyM where
  boundsMin : ℚ × ℚ
  boundsMax : ℚ × ℚ
  inside : ℚ × ℚ → Bool
  dist : ℚ × ℚ → ℚ
  distNonneg : ∀ p, 0 ≤ dist p

/-- KINDA_SMALL_NUMBER-scale constant SMALL_NUMBER of UE (1e-8). -/
def smallNumber : ℚ := 1 / 100000000

/-- OSMToCentimetersScaleFactor (line 300). -/
def osmToCentimeters : ℚ := 100

/-- Pixel index of vertex (x, y) in the Size * Size weight map
(line 726): (y + n) * size + x + n with size = 2 * n. -/
def pixelIndex (n : Int) (x y : Int) : Nat :=
  ((y + n) * (2 * n) + x + n).toNat

/-- The clamped raster box of one polygon (lines 700-709): the polygon
bounds extended by half the blend gauge, floored/ceiled, clamped to the
blendweight area. -/
def polyBox (n : Int) (halfGauge : ℚ) (p : PolyM) : (Int × Int) × (Int × Int) :=
  ((max (-n) ⌊p.boundsMin.1 - halfGauge⌋, max (-n) ⌊p.boundsMin.2 - halfGauge⌋),
   (min (n - 1) ⌈p.boundsMax.1 + halfGauge⌉, min (n - 1) ⌈p.boundsMax.2 + halfGauge⌉))

/-- The cells of the polygon box, row by row (the loop order of
lines 712-714). -/
def boxCells (n : Int) (halfGauge : ℚ) (p : PolyM) : List (Int × Int) :=
  let box := polyBox n halfGauge p
  (intRange box.1.2 box.2.2).flatMap
    (fun y => (intRange box.1.1 box.2.1).map (fun x => (x, y)))

/-- The paint condition of lines 719-721 at vertex (x, y): the query point
is the vertex location in centimetres; paint when inside or when the
squared distance is below the squared half gauge. -/
def paintCond (quadSize : ℚ) (halfGauge : ℚ) (p : PolyM) (x y : Int) : Bool :=
  let v : ℚ × ℚ := (x * quadSize * osmToCentimeters, y * quadSize * osmToCentimeters)
  p.inside v || decide (p.dist v * p.dist v < halfGauge * halfGauge)

/-- The weight written for the current layer at a painted cell
(lines 723-727): linear falloff from the signed distance, scaled to bytes,
rounded and clamped to at most 255. -/
def paintWeight (quadSize : ℚ) (halfGauge : ℚ) (p : PolyM) (x y : Int) : Nat :=
  let v : ℚ × ℚ := (x * quadSize * osmToCentimeters, y * quadSize * osmToCentimeters)
  let lerp : ℚ :=
    if smallNumber < halfGauge then
      (p.dist v / halfGauge) * (if p.inside v then (1 : ℚ) / 2 else -(1 : ℚ) / 2) + 1 / 2
    else 1
  (min 255 (roundToInt (255 * lerp))).toNat

/-- The rescale of one previously assigned layer value at a painted cell
(lines 730-733): RoundToInt of the available fraction times the old byte. -/
def rescaleWeight (w : Nat) (old : Nat) : Nat :=
  (roundToInt ((255 - (w : ℚ)) / 255 * (old : ℚ))).toNat

/-- The loop body of lines 716-735 for one cell: when the paint condition
holds, write the new weight into the current layer and ramp down every
previously assigned layer at the same pixel. -/
def applyPolyCell (n : Int) (quadSize halfGauge : ℚ) (p : PolyM) (c : Int × Int)
    (st : (Nat → Nat) × List (Nat → Nat)) : (Nat → Nat) × List (Nat → Nat) :=
  if paintCond quadSize halfGauge p c.1 c.2 then
    let px := pixelIndex n c.1 c.2
    let w := paintWeight quadSize halfGauge p c.1 c.2
    (Function.update st.1 px w,
     st.2.map (fun layer => Function.update layer px (rescaleWeight w (layer px))))
  else st

/-- Rasterize one polygon over its clamped box (lines 689-737). -/
def applyPoly (n : Int) (quadSize halfGauge : ℚ)
    (st : (Nat → Nat) × List (Nat → Nat)) (p : PolyM) :
    (Nat → Nat) × List (Nat → Nat) :=
  (boxCells n halfGauge p).foldl (fun s c => applyPolyCell n quadSize halfGauge p c s) st

/-- Process the layer list of CreateLandscape (lines 664-755), carrying the
already-built layers: the first layer is memset to 255; a later layer with
polygons starts at 0 and rasterizes each polygon in order (mutating the
previous layers); a later layer without polygons is 0 except that its first
pixel is force-set to the marker value 1. -/
def processLayers (n : Int) (quadSize halfGauge : ℚ) :
    List (Nat → Nat) → List (List PolyM) → List (Nat → Nat)
  | acc, [] => acc
  | acc, polys :: restLayers =>
      if acc.isEmpty then
        processLayers n quadSize halfGauge [fun _ => 255] restLayers
      else
        let zero : Nat → Nat := fun _ => 0
        if polys.isEmpty then
          processLayers n quadSize halfGauge
            (acc ++ [Function.update zero 0 1]) restLayers
        else
          let res := polys.foldl (applyPoly n quadSize halfGauge) (zero, acc)
          processLayers n quadSize halfGauge (res.2 ++ [res.1]) restLayers

/-- The blend-weight part of CreateLandscape: the half blend gauge is the
build-settings gauge scaled to centimetres and halved (lines 691-692); the
layers are processed in configuration order, the first being the base. -/
def createLandscapeLayers (n : Int) (quadSize blendGaugeSetting : ℚ)
    (layerPolys : List (List PolyM)) : List (Nat → Nat) :=
  let halfGauge := blendGaugeSetting * osmToCentimeters * (1 / 2)
  processLayers n quadSize halfGauge [] layerPolys

/-- Sum of the per-layer weights at one pixel. -/
def sumWeights (layers : List (Nat → Nat)) (px : Nat) : Nat :=
  (layers.map (fun layer => layer px)).sum

/-! ## Auxiliary notions used by the theorems -/

/-- Ticking every tile of a list once, in order, threading the pending
counter: the reference behaviour a full round would have if it never
stopped early. -/
def tickSeq (g : Nat) : List Tile → Nat × List Tile
  | [] => (g, [])
  | t :: rest =>
      let p := Tile.tickOnce g t
      let q := tickSeq p.1 rest
      (q.1, p.2 :: q.2)

/-- The values of a rasterizer state (current layer and previous layers)
at one pixel. -/
def readsAt (st : (Nat → Nat) × List (Nat → Nat)) (px : Nat) : Nat × List Nat :=
  (st.1 px, st.2.map (fun layer => layer px))

/-- Whether a polygon paints cell c: the cell lies in the polygon's
clamped raster box and the paint condition holds there. -/
def touchesB (n : Int) (quadSize halfGauge : ℚ) (p : PolyM) (c : Int × Int) : Bool :=
  decide (c ∈ boxCells n halfGauge p) && paintCond quadSize halfGauge p c.1 c.2

/-! ### Concrete configurations for counterexamples and witnesses -/

/-- A 1x1 image whose single pixel is (R,G,B) = (128,0,0). -/
def c5Image : PngImage :=
  { compressedOk := true, bitDepth := 8, format := .rgba, width := 1, height := 1,
    rawOk := true, pixels := [(128, 0, 0, 255)] }

/-- A decoded image whose width disagrees with the expected tile width. -/
def c6Image : PngImage :=
  { compressedOk := true, bitDepth := 8, format := .rgba, width := 2, height := 1,
    rawOk := true, pixels := [(1, 2, 3, 255), (4, 5, 6, 255)] }

/-- A polygon whose clamped raster box is the single vertex (0, 0), which
it contains at interior depth 1/2 (so a painted weight of 255 for half
gauge 1/2). -/
def c2PolyA : PolyM :=
  { boundsMin := (1 / 2, 1 / 2), boundsMax := (1 / 2, 1 / 2)
    inside := fun v => decide (v = (0, 0))
    dist := fun _ => 1 / 2
    distNonneg := fun _ => by norm_num }

/-- A polygon whose clamped raster box is the single vertex (0, 0), which
lies exactly on its boundary (so a painted weight of 128 for half gauge
1/2). -/
def c2PolyB : PolyM :=
  { boundsMin := (1 / 2, 1 / 2), boundsMax := (1 / 2, 1 / 2)
    inside := fun v => decide (v = (0, 0))
    dist := fun _ => 0
    distNonneg := fun _ => le_refl 0 }

/-- A tile whose environment finishes from cache on the first tick. -/
def c9CacheTile : Tile := { x := 0, y := 0, z := 0, script := .cacheHit }

/-- A tile whose download resolves successfully after five polling rounds. -/
def c9SlowTile : Tile := { x := 1, y := 0, z := 0, script := .download 5 true }

/-- Two-level tiled map over the WebMercator square of half extent 1
(the witness configuration). -/
def witnessTm : TiledMapM := { numLevels := 2, tileWidth := 256, tileHeight := 256, bound := 1 }

/-- A concrete projection collaborator for the witnesses: every local
point maps to the WebMercator origin. -/
def witnessSrs (_ : ℚ × ℚ) : Option (ℚ × ℚ) := some ((0 : ℚ), (0 : ℚ))

/-- Witness script for C1: the tile (0,0) fails its download at once,
every other tile would succeed after five rounds. -/
def c1Script (k : Int × Int) : TileScript :=
  if k = (0, 0) then .download 0 false else .download 5 true

/-- Witness script for C10: every tile is served from the disk cache. -/
def c10Script (_ : Int × Int) : TileScript := .cacheHit

/-- The final scheduler state of the C1 witness run: the tile (0,0) failed
in round two, the three other tiles were cancelled, nothing downloaded. -/
def c1FinalState : SchedState :=
  { g := 0, pending := [], downloaded := []
    cancelled :=
      [{ x := 1, y := 0, z := 1, script := .download 5 true, wasInitialized := true,
         failed := true, httpValid := true, remaining := 5, ticks := 1, cancels := 1 },
       { x := 0, y := 1, z := 1, script := .download 5 true, wasInitialized := true,
         failed := true, httpValid := true, remaining := 5, ticks := 1, cancels := 1 },
       { x := 1, y := 1, z := 1, script := .download 5 true, wasInitialized := true,
         failed := true, httpValid := true, remaining := 5, ticks := 1, cancels := 1 }]
    failedTiles :=
      [{ x := 0, y := 0, z := 1, script := .download 0 false, wasInitialized := true,
         failed := true, httpValid := true, remaining := 0, ticks := 2, cancels := 0 }] }

/-- The final scheduler state of the C10 witness run: all four tiles
downloaded from cache, in order. -/
def c10FinalState : SchedState :=
  { g := 0, pending := [], cancelled := [], failedTiles := []
    downloaded :=
      [{ x := 0, y := 0, z := 1, script := .cacheHit, wasInitialized := true,
         wasDownloadSuccessful := true, ticks := 1 },
       { x := 1, y := 0, z := 1, script := .cacheHit, wasInitialized := true,
         wasDownloadSuccessful := true, ticks := 1 },
       { x := 0, y := 1, z := 1, script := .cacheHit, wasInitialized := true,
         wasDownloadSuccessful := true, ticks := 1 },
       { x := 1, y := 1, z := 1, script := .cacheHit, wasInitialized := true,
         wasDownloadSuccessful := true, ticks := 1 }] }

/-! ## Theorems -/

/-- C3: when the global elevation range is degenerate (max = min), the
reprojection scale 65535 / (max - min) is an IEEE division by zero
yielding infinity, and quantizing any cell value produces no defined
result (NaN or infinity under RoundToInt) — there is no defined fallback
value, contradicting the spec requirement; the claim is right and the
code (Elevation.cpp lines 511-512, 541-544, which have no guard on a zero
range) is wrong. -/
theorem c3_degenerate_range_divides_by_zero (m e : ℚ) :
    elevationScale m m = FVal.inf ∧ quantizeElevation m m e = none := by
  have hscale : elevationScale m m = FVal.inf := by
    simp [elevationScale, FVal.sub, FVal.div]
  refine ⟨hscale, ?_⟩
  unfold quantizeElevation
  rw [hscale]
  rcases lt_trichotomy (e - m) 0 with h | h | h
  · simp [FVal.sub, FVal.mul, roundToIntF, h, ne_of_lt h, not_lt_of_lt h]
  · simp [FVal.sub, FVal.mul, roundToIntF, h]
  · simp [FVal.sub, FVal.mul, roundToIntF, h, ne_of_gt h]

/-- C4: for a nondegenerate range (max > min) the linear quantization of
ReprojectData maps the global minimum to 0 and the global maximum to
65535. -/
theorem c4_quantize_endpoints (emin emax : ℚ) (h : emin < emax) :
    quantizeElevation emin emax emin = some 0 ∧
    quantizeElevation emin emax emax = some 65535 := by
  have hr : emax - emin ≠ 0 := sub_ne_zero_of_ne (ne_of_gt h)
  constructor
  · unfold quantizeElevation elevationScale
    simp only [FVal.sub, FVal.div, if_neg hr, FVal.mul, roundToIntF, sub_self, zero_mul]
    norm_num [toUInt16]
  · unfold quantizeElevation elevationScale
    simp only [FVal.sub, FVal.div, if_neg hr, FVal.mul, roundToIntF]
    rw [mul_div_cancel₀ _ hr]
    norm_num [toUInt16]
    decide

/-- C4 witness: the endpoints quantize to 0 and 65535 for the concrete
nondegenerate range 0 .. 1. -/
theorem c4_quantize_endpoints_witness :
    quantizeElevation 0 1 0 = some 0 ∧ quantizeElevation 0 1 1 = some 65535 :=
  c4_quantize_endpoints 0 1 (by norm_num)

/-- C5 counterexample: the pixel (R,G,B) = (128,0,0) is decoded by
UnpackElevation to the stored value 0 (its raw value 32768 passes the
validity test and the offset 32768 is subtracted), not -256 as the claim
states. -/
theorem c5_counterexample_decode_128 :
    (unpackElevation 1 1 c5Image).2.1 = [(0 : ℚ)] ∧ (0 : ℚ) ≠ -256 := by
  constructor
  · norm_num [unpackElevation, c5Image, unpackPixels]
  · norm_num

/-- C5 amended: decoding the pixel (R,G,B) = (128,0,0) yields the stored
elevation value 0, consistent with the formula R*256 + G + B/256 - 32768
(the claimed value -256 miscomputes that formula). -/
theorem c5_amended_decode_128 :
    (unpackElevation 1 1 c5Image).2.1 = [(128 * 256 + 0 + 0 / 256 - 32768 : ℚ)] := by
  norm_num [unpackElevation, c5Image, unpackPixels]

/-- C6: when the decoded raster dimensions disagree with the tile source,
or the channel format or bit depth is not 8-bit RGBA, UnpackElevation
reports failure and the elevation array stays empty. -/
theorem c6_decode_mismatch_fails (tileWidth tileHeight : Int) (img : PngImage)
    (h : img.width ≠ tileWidth ∨ img.height ≠ tileHeight ∨
         img.format ≠ RGBFormatM.rgba ∨ img.bitDepth ≠ 8) :
    (unpackElevation tileWidth tileHeight img).1 = false ∧
    (unpackElevation tileWidth tileHeight img).2.1 = [] := by
  unfold unpackElevation
  split
  · split
    · exact ⟨rfl, rfl⟩
    · split
      · exact ⟨rfl, rfl⟩
      · rename_i hdim hfmt
        push_neg at hdim hfmt
        rcases h with h | h | h | h
        · exact absurd hdim.1 (by simpa using h)
        · exact absurd hdim.2 (by simpa using h)
        · exact absurd hfmt.1 (by simpa using h)
        · exact absurd hfmt.2 (by simpa using h)
  · exact ⟨rfl, rfl⟩

/-- C6 witness: a 2x1 image against an expected 1x1 tile fails and leaves
the elevation array empty. -/
theorem c6_decode_mismatch_fails_witness :
    (unpackElevation 1 1 c6Image).1 = false ∧ (unpackElevation 1 1 c6Image).2.1 = [] :=
  c6_decode_mismatch_fails 1 1 c6Image (Or.inl (by decide))

/-- C7: for an output cell whose projection reports out of domain, or
whose fractional pixel location lies within 2 pixels of an edge of its
tile (the tile being present), ReprojectData writes the neutral
mid-range sentinel 32768. -/
theorem c7_edge_and_domain_sentinel (tileWidth tileHeight : Int)
    (emin emax : ℚ) (hasTile : Int × Int → Bool) (sample : ProjHit → ℚ)
    (proj : Option ProjHit) :
    (proj = none →
      reprojectCell tileWidth tileHeight emin emax hasTile sample proj =
        some (some 32768)) ∧
    (∀ hit, proj = some hit → hasTile hit.tileXY = true →
      withinTwoOfEdge tileWidth tileHeight hit.pixel →
      reprojectCell tileWidth tileHeight emin emax hasTile sample proj =
        some (some 32768)) := by
  constructor
  · intro h
    subst h
    rfl
  · intro hit hp htile hedge
    subst hp
    have hcond : ¬(2 ≤ hit.pixel.1 ∧ 2 ≤ hit.pixel.2 ∧
        hit.pixel.1 < (tileWidth : ℚ) - 3 ∧ hit.pixel.2 < (tileHeight : ℚ) - 3) := by
      rintro ⟨h1, h2, h3, h4⟩
      rcases hedge with h | h | h | h <;> linarith
    simp [reprojectCell, htile, hcond]

/-! ### Scheduler lemmas -/

theorem tickOnce_ticks (g : Nat) (t : Tile) :
    (Tile.tickOnce g t).2.ticks = t.ticks + 1 := by
  unfold Tile.tickOnce
  dsimp only
  repeat' split
  all_goals rfl

theorem tickOnce_key (g : Nat) (t : Tile) :
    (Tile.tickOnce g t).2.key = t.key := by
  unfold Tile.tickOnce Tile.key
  dsimp only
  repeat' split
  all_goals rfl

theorem tickSeq_length (g : Nat) (l : List Tile) :
    (tickSeq g l).2.length = l.length := by
  induction l generalizing g with
  | nil => rfl
  | cons t rest ih => simp [tickSeq, ih]

theorem tickSeq_keys (g : Nat) (l : List Tile) :
    (tickSeq g l).2.map Tile.key = l.map Tile.key := by
  induction l generalizing g with
  | nil => rfl
  | cons t rest ih => simp [tickSeq, ih, tickOnce_key]

theorem tickSeq_ticks (g : Nat) (l : List Tile) :
    (tickSeq g l).2.map Tile.ticks = l.map (fun t => t.ticks + 1) := by
  induction l generalizing g with
  | nil => rfl
  | cons t rest ih => simp [tickSeq, ih, tickOnce_ticks]

theorem cancelRequest_fields (g : Nat) (t : Tile) :
    (Tile.cancelRequest g t).2.failed = true ∧
    (Tile.cancelRequest g t).2.cancels = t.cancels + 1 := by
  unfold Tile.cancelRequest
  dsimp only
  split <;> exact ⟨rfl, rfl⟩

theorem cancelAll_length (g : Nat) (l : List Tile) :
    (cancelAll g l).2.length = l.length := by
  induction l generalizing g with
  | nil => rfl
  | cons t rest ih => simp [cancelAll, ih]

theorem cancelAll_mem (g : Nat) (l : List Tile) :
    ∀ u ∈ (cancelAll g l).2, u.failed = true ∧ 1 ≤ u.cancels := by
  induction l generalizing g with
  | nil => intro u hu; simp [cancelAll] at hu
  | cons t rest ih =>
      intro u hu
      simp only [cancelAll, List.mem_cons] at hu
      rcases hu with hu | hu
      · subst hu
        refine ⟨(cancelRequest_fields g t).1, ?_⟩
        rw [(cancelRequest_fields g t).2]
        omega
      · exact ih _ u hu

theorem processRound_cons_finished_succ (g : Nat) (t : Tile) (rest : List Tile)
    (h1 : (Tile.tickOnce g t).2.hasFinished = true)
    (h2 : (Tile.tickOnce g t).2.succeeded = true) :
    processRound g (t :: rest) =
      { g := (Tile.tickOnce g t).1, pending := rest,
        finisher := some ((Tile.tickOnce g t).2, true), cancelled := [] } := by
  simp [processRound, h1, h2]

theorem processRound_cons_finished_fail (g : Nat) (t : Tile) (rest : List Tile)
    (h1 : (Tile.tickOnce g t).2.hasFinished = true)
    (h2 : (Tile.tickOnce g t).2.succeeded = false) :
    processRound g (t :: rest) =
      { g := (cancelAll (Tile.tickOnce g t).1 rest).1, pending := [],
        finisher := some ((Tile.tickOnce g t).2, false),
        cancelled := (cancelAll (Tile.tickOnce g t).1 rest).2 } := by
  simp [processRound, h1, h2]

theorem processRound_cons_nf_propagate (g : Nat) (t : Tile) (rest : List Tile)
    (ft : Tile)
    (h1 : (Tile.tickOnce g t).2.hasFinished = false)
    (hf : (processRound (Tile.tickOnce g t).1 rest).finisher = some (ft, false)) :
    processRound g (t :: rest) =
      { g := (Tile.cancelRequest (processRound (Tile.tickOnce g t).1 rest).g
                (Tile.tickOnce g t).2).1,
        pending := [], finisher := some (ft, false),
        cancelled := (Tile.cancelRequest (processRound (Tile.tickOnce g t).1 rest).g
                (Tile.tickOnce g t).2).2 ::
            (processRound (Tile.tickOnce g t).1 rest).cancelled } := by
  simp [processRound, h1, hf]

theorem processRound_cons_nf_none (g : Nat) (t : Tile) (rest : List Tile)
    (h1 : (Tile.tickOnce g t).2.hasFinished = false)
    (hf : (processRound (Tile.tickOnce g t).1 rest).finisher = none) :
    processRound g (t :: rest) =
      { g := (processRound (Tile.tickOnce g t).1 rest).g,
        pending := (Tile.tickOnce g t).2 ::
            (processRound (Tile.tickOnce g t).1 rest).pending,
        finisher := none,
        cancelled := (processRound (Tile.tickOnce g t).1 rest).cancelled } := by
  simp [processRound, h1, hf]

theorem processRound_cons_nf_ok (g : Nat) (t : Tile) (rest : List Tile) (ft : Tile)
    (h1 : (Tile.tickOnce g t).2.hasFinished = false)
    (hf : (processRound (Tile.tickOnce g t).1 rest).finisher = some (ft, true)) :
    processRound g (t :: rest) =
      { g := (processRound (Tile.tickOnce g t).1 rest).g,
        pending := (Tile.tickOnce g t).2 ::
            (processRound (Tile.tickOnce g t).1 rest).pending,
        finisher := some (ft, true),
        cancelled := (processRound (Tile.tickOnce g t).1 rest).cancelled } := by
  simp [processRound, h1, hf]

/-- Full case analysis of one round: with no finisher the round ticks
every pending tile once in order; a successful finisher at position k ends
the round with the prefix ticked and the suffix untouched; a failed
finisher empties the pending set. -/
theorem processRound_cases (g : Nat) (l : List Tile) :
    ((processRound g l).finisher = none →
       (processRound g l).pending = (tickSeq g l).2) ∧
    (∀ t, (processRound g l).finisher = some (t, true) →
       ∃ l1 t0 l2, l = l1 ++ t0 :: l2 ∧
         t = (Tile.tickOnce (tickSeq g l1).1 t0).2 ∧
         (processRound g l).pending = (tickSeq g l1).2 ++ l2) ∧
    (∀ t, (processRound g l).finisher = some (t, false) →
       (processRound g l).pending = []) := by
  induction l generalizing g with
  | nil =>
      refine ⟨fun _ => rfl, fun t ht => ?_, fun t ht => ?_⟩ <;>
        simp [processRound] at ht
  | cons t rest ih =>
      cases h1 : (Tile.tickOnce g t).2.hasFinished with
      | true =>
          cases h2 : (Tile.tickOnce g t).2.succeeded with
          | true =>
              rw [processRound_cons_finished_succ g t rest h1 h2]
              refine ⟨fun hf => by simp at hf, fun u hu => ?_, fun u hu => by simp at hu⟩
              simp only [Option.some.injEq, Prod.mk.injEq] at hu
              exact ⟨[], t, rest, rfl, by rw [← hu.1]; rfl, by simp [tickSeq]⟩
          | false =>
              rw [processRound_cons_finished_fail g t rest h1 h2]
              exact ⟨fun hf => by simp at hf, fun u hu => by simp at hu,
                fun u _ => rfl⟩
      | false =>
          rcases hfin : (processRound (Tile.tickOnce g t).1 rest).finisher with
            _ | ⟨ft, ok⟩
          · rw [processRound_cons_nf_none g t rest h1 hfin]
            refine ⟨fun _ => ?_, fun u hu => by simp at hu, fun u hu => by simp at hu⟩
            have := ((ih (Tile.tickOnce g t).1).1) hfin
            simp only [tickSeq]
            rw [this]
          · cases ok with
            | true =>
                rw [processRound_cons_nf_ok g t rest ft h1 hfin]
                refine ⟨fun hf => by simp at hf, fun u hu => ?_,
                  fun u hu => by simp at hu⟩
                simp only [Option.some.injEq, Prod.mk.injEq] at hu
                obtain ⟨l1, t0, l2, hsplit, hval, hpend⟩ :=
                  ((ih (Tile.tickOnce g t).1).2.1) ft hfin
                refine ⟨t :: l1, t0, l2, by simp [hsplit], ?_, ?_⟩
                · rw [← hu.1, hval]; rfl
                · simp only [tickSeq]
                  rw [hpend]
                  simp
            | false =>
                rw [processRound_cons_nf_propagate g t rest ft h1 hfin]
                exact ⟨fun hf => by simp at hf, fun u hu => by simp at hu,
                  fun u _ => rfl⟩

/-- C9 counterexample: in a round over two pending tiles where the first
finishes (cache hit) on its tick, the round ends with a finisher and the
still-pending second tile has been ticked zero times, not exactly once as
the claim states. -/
theorem c9_counterexample_round_stops_early :
    (processRound 0 [c9CacheTile, c9SlowTile]).finisher.isSome = true ∧
    (processRound 0 [c9CacheTile, c9SlowTile]).pending.map Tile.ticks = [0] ∧
    [0] ≠ [1] := by
  refine ⟨?_, ?_, by simp⟩ <;> decide

/-- C9 amended: in each round the pending tiles are advanced in insertion
order only until the first tile observed finished; in a round where no
tile finishes every pending tile is ticked exactly once (in order), while
a finishing tile ends the round immediately — the tiles before it are
ticked exactly once, it is removed, the tiles after it are not ticked that
round — and a failed finisher empties the pending set instead. -/
theorem c9_round_ticks (g : Nat) (l : List Tile) :
    ((processRound g l).finisher = none →
       (processRound g l).pending = (tickSeq g l).2 ∧
       (processRound g l).pending.map Tile.ticks = l.map (fun t => t.ticks + 1)) ∧
    (∀ t, (processRound g l).finisher = some (t, true) →
       ∃ l1 t0 l2, l = l1 ++ t0 :: l2 ∧
         t = (Tile.tickOnce (tickSeq g l1).1 t0).2 ∧
         (processRound g l).pending = (tickSeq g l1).2 ++ l2 ∧
         (tickSeq g l1).2.map Tile.ticks = l1.map (fun u => u.ticks + 1) ∧
         t.ticks = t0.ticks + 1) ∧
    (∀ t, (processRound g l).finisher = some (t, false) →
       (processRound g l).pending = []) := by
  obtain ⟨hnone, hsucc, hfail⟩ := processRound_cases g l
  refine ⟨fun hf => ⟨hnone hf, ?_⟩, fun t ht => ?_, hfail⟩
  · rw [hnone hf, tickSeq_ticks]
  · obtain ⟨l1, t0, l2, hsplit, hval, hpend⟩ := hsucc t ht
    exact ⟨l1, t0, l2, hsplit, hval, hpend, tickSeq_ticks _ _,
      by rw [hval, tickOnce_ticks]⟩

/-- C9 witness: a round over one slow tile has no finisher and its pending
tile is ticked exactly once. -/
theorem c9_round_ticks_witness :
    (processRound 0 [c9SlowTile]).pending.map Tile.ticks = [1] := by
  have h := ((c9_round_ticks 0 [c9SlowTile]).1 (by decide)).2
  rw [h]
  decide

theorem processRound_none_length (g : Nat) (l : List Tile)
    (h : (processRound g l).finisher = none) :
    (processRound g l).pending.length = l.length := by
  rw [(processRound_cases g l).1 h, tickSeq_length]

theorem processRound_some_true_length (g : Nat) (l : List Tile) (t : Tile)
    (h : (processRound g l).finisher = some (t, true)) :
    (processRound g l).pending.length + 1 = l.length := by
  obtain ⟨l1, t0, l2, hsplit, _, hpend⟩ := (processRound_cases g l).2.1 t h
  rw [hpend, hsplit]
  simp [tickSeq_length]
  omega

theorem processRound_fail_spec (g : Nat) (l : List Tile) (t : Tile)
    (h : (processRound g l).finisher = some (t, false)) :
    (processRound g l).pending = [] ∧
    (processRound g l).cancelled.length + 1 = l.length ∧
    ∀ u ∈ (processRound g l).cancelled, u.failed = true ∧ 1 ≤ u.cancels := by
  induction l generalizing g with
  | nil => simp [processRound] at h
  | cons a rest ih =>
      cases h1 : (Tile.tickOnce g a).2.hasFinished with
      | true =>
          cases h2 : (Tile.tickOnce g a).2.succeeded with
          | true =>
              rw [processRound_cons_finished_succ g a rest h1 h2] at h
              simp at h
          | false =>
              rw [processRound_cons_finished_fail g a rest h1 h2] at h ⊢
              exact ⟨rfl, by simp [cancelAll_length], cancelAll_mem _ _⟩
      | false =>
          rcases hfin : (processRound (Tile.tickOnce g a).1 rest).finisher with
            _ | ⟨ft, ok⟩
          · rw [processRound_cons_nf_none g a rest h1 hfin] at h
            simp at h
          · cases ok with
            | true =>
                rw [processRound_cons_nf_ok g a rest ft h1 hfin] at h
                simp at h
            | false =>
                rw [processRound_cons_nf_propagate g a rest ft h1 hfin] at h ⊢
                have hft : ft = t := by simpa using h
                subst hft
                obtain ⟨_, hlen, hmem⟩ := ih (Tile.tickOnce g a).1 hfin
                refine ⟨rfl, by simpa using by omega, ?_⟩
                intro u hu
                rcases List.mem_cons.mp hu with hu | hu
                · subst hu
                  refine ⟨(cancelRequest_fields _ _).1, ?_⟩
                  rw [(cancelRequest_fields _ _).2]
                  omega
                · exact hmem u hu

theorem loadLoop_of_empty (uc : Nat → Bool) (fuel round : Nat) (st : SchedState)
    (h : st.pending = []) (hf : fuel ≠ 0) : loadLoop uc fuel round st = some st := by
  cases fuel with
  | zero => exact absurd rfl hf
  | succ fuel => simp [loadLoop, h]

theorem loadLoop_fail_spec (uc : Nat → Bool) (fuel : Nat) :
    ∀ (round : Nat) (st res : SchedState) (total : Nat),
    loadLoop uc fuel round st = some res →
    st.failedTiles = [] → st.cancelled = [] →
    st.downloaded.length + st.pending.length = total →
    res.failedTiles ≠ [] →
    res.pending = [] ∧
    (∀ u ∈ res.cancelled, u.failed = true ∧ 1 ≤ u.cancels) ∧
    res.downloaded.length + res.cancelled.length + 1 = total ∧
    res.downloaded.length < total := by
  induction fuel with
  | zero =>
      intro round st res total hrun
      simp [loadLoop] at hrun
  | succ fuel ih =>
      intro round st res total hrun hct hcc hlen hfail
      rw [loadLoop] at hrun
      cases hp : st.pending.isEmpty with
      | true =>
          rw [hp] at hrun
          simp only [if_true] at hrun
          obtain rfl : st = res := by simpa using hrun
          exact absurd hct hfail
      | false =>
          rw [hp] at hrun
          simp only [Bool.false_eq_true, if_false] at hrun
          cases huc : uc round with
          | true =>
              rw [huc] at hrun
              simp only [if_true] at hrun
              obtain rfl : st = res := by simpa using hrun
              exact absurd hct hfail
          | false =>
              rw [huc] at hrun
              simp only [Bool.false_eq_true, if_false] at hrun
              rcases hfin : (processRound st.g st.pending).finisher with _ | ⟨t, ok⟩
              · rw [hfin] at hrun
                dsimp only at hrun
                refine ih (round + 1) _ res total hrun hct hcc ?_ hfail
                simp [processRound_none_length st.g st.pending hfin, hlen]
              · cases ok with
                | true =>
                    rw [hfin] at hrun
                    dsimp only at hrun
                    refine ih (round + 1) _ res total hrun hct hcc ?_ hfail
                    have h2 := processRound_some_true_length st.g st.pending t hfin
                    simp only [List.length_append, List.length_cons, List.length_nil]
                    omega
                | false =>
                    rw [hfin] at hrun
                    dsimp only at hrun
                    obtain ⟨hpend, hclen, hcmem⟩ :=
                      processRound_fail_spec st.g st.pending t hfin
                    have hres : res =
                        { st with g := (processRound st.g st.pending).g, pending := [],
                                  cancelled := st.cancelled ++
                                    (processRound st.g st.pending).cancelled,
                                  failedTiles := st.failedTiles ++ [t] } := by
                      cases fuel with
                      | zero => simp [loadLoop] at hrun
                      | succ fuel2 =>
                          rw [loadLoop_of_empty uc _ _ _ rfl (by omega)] at hrun
                          simpa using hrun.symm
                    have hplen : 1 ≤ st.pending.length := by
                      cases hl : st.pending with
                      | nil => rw [hl] at hp; simp at hp
                      | cons a l2 => simp [hl]
                    subst hres
                    refine ⟨rfl, ?_, ?_, ?_⟩
                    · intro u hu
                      simp only [hcc, List.nil_append] at hu
                      exact hcmem u hu
                    · simp only [hcc, List.nil_append]
                      omega
                    · simp only []
                      omega

theorem witnessTileX : witnessTm.getTileX 0 1 = 1 := by
  unfold TiledMapM.getTileX witnessTm clampTile
  rw [show ((0 : ℚ) + 1) / (2 * 1) * ((2 : ℚ) ^ 1) = 1 by norm_num]
  simp

theorem witnessTileY : witnessTm.getTileY 0 1 = 1 := by
  unfold TiledMapM.getTileY witnessTm clampTile
  rw [show ((1 : ℚ) - 0) / (2 * 1) * ((2 : ℚ) ^ 1) = 1 by norm_num]
  simp

theorem witnessSrsEq (p : ℚ × ℚ) : witnessSrs p = some ((0 : ℚ), (0 : ℚ)) := rfl

theorem witnessKeysEq :
    requiredKeys witnessTm witnessSrs 32 1 = [(0, 0), (1, 0), (0, 1), (1, 1)] := by
  unfold requiredKeys
  simp only [witnessSrsEq]
  unfold requiredTiles TiledMapM.getTileXY
  rw [show witnessTm.numLevels - 1 = 1 from rfl]
  dsimp only
  rw [witnessTileX, witnessTileY]
  decide

theorem c1WitnessRunEq :
    loadElevationDataM witnessTm witnessSrs 32 1 c1Script (fun _ => false) 6 =
      some (false, c1FinalState) := by
  unfold loadElevationDataM
  simp only [witnessSrsEq]
  rw [witnessKeysEq]
  decide

/-- C1: if any required tile reaches the Failed state during elevation
acquisition, then every tile still pending at that moment is issued a
cancel request (ending failed with its cancel counter incremented), the
pending set becomes empty, and LoadElevationData returns false; the
accounting downloaded + cancelled + 1 = required shows the cancellations
cover every non-downloaded tile, so no partial tile set is ever reported
as a success to the reprojection step. -/
theorem c1_fail_fast (tm : TiledMapM) (srs : ℚ × ℚ → Option (ℚ × ℚ))
    (radius quadSize : ℚ) (script : Int × Int → TileScript)
    (uc : Nat → Bool) (fuel : Nat) (ok : Bool) (st : SchedState)
    (hrun : loadElevationDataM tm srs radius quadSize script uc fuel = some (ok, st))
    (hfail : st.failedTiles ≠ []) :
    ok = false ∧ st.pending = [] ∧
    (∀ u ∈ st.cancelled, u.failed = true ∧ 1 ≤ u.cancels) ∧
    st.downloaded.length + st.cancelled.length + 1 =
      (requiredKeys tm srs radius quadSize).length ∧
    st.downloaded.length < (requiredKeys tm srs radius quadSize).length := by
  unfold loadElevationDataM at hrun
  unfold requiredKeys at hrun ⊢
  dsimp only at hrun
  set corner1 := srs (-(((getNumVerticesForRadius radius quadSize).1 : ℚ) * quadSize),
      ((getNumVerticesForRadius radius quadSize).1 : ℚ) * quadSize) with hc1
  set corner2 := srs ((((getNumVerticesForRadius radius quadSize).1 : ℚ) * quadSize),
      -(((getNumVerticesForRadius radius quadSize).1 : ℚ) * quadSize)) with hc2
  clear_value corner1 corner2
  rcases corner1 with _ | ws
  · dsimp only at hrun ⊢
    obtain ⟨-, rfl⟩ : ok = false ∧
        ({ g := 0, pending := [], downloaded := [], cancelled := [],
           failedTiles := [] } : SchedState) = st := by simpa using hrun
    simp at hfail
  · rcases corner2 with _ | en
    · dsimp only at hrun ⊢
      obtain ⟨-, rfl⟩ : ok = false ∧
          ({ g := 0, pending := [], downloaded := [], cancelled := [],
             failedTiles := [] } : SchedState) = st := by simpa using hrun
      simp at hfail
    · dsimp only at hrun ⊢
      rcases hloop : loadLoop uc fuel 0
          { g := 0,
            pending := (requiredTiles tm ws.1 ws.2 en.1 en.2).map
              (fun k => ({ x := k.1, y := k.2, z := tm.numLevels - 1,
                           script := script k } : Tile)),
            downloaded := [], cancelled := [], failedTiles := [] } with _ | st2
      · rw [hloop] at hrun
        simp at hrun
      · rw [hloop] at hrun
        dsimp only at hrun
        obtain ⟨hok, hst⟩ : _ ∧ st2 = st := by simpa using hrun
        subst hst
        obtain ⟨hpend, hmem, hacc, hlt⟩ :=
          loadLoop_fail_spec uc fuel 0 _ st2
            ((requiredTiles tm ws.1 ws.2 en.1 en.2).length) hloop rfl rfl
            (by simp) hfail
        rw [← hc1, ← hc2]
        dsimp only
        refine ⟨?_, hpend, hmem, hacc, hlt⟩
        rw [← hok]
        simp only [List.length_map, decide_eq_false_iff_not, not_le]
        exact hlt

/-- C1 witness: in the concrete four-tile job where tile (0,0) fails its
download at once, the job reports failure, the pending set is empty, the
three other tiles were cancel-requested, and the accounting covers all
four required tiles. -/
theorem c1_fail_fast_witness :
    (false : Bool) = false ∧ c1FinalState.pending = [] ∧
    (∀ u ∈ c1FinalState.cancelled, u.failed = true ∧ 1 ≤ u.cancels) ∧
    c1FinalState.downloaded.length + c1FinalState.cancelled.length + 1 =
      (requiredKeys witnessTm witnessSrs 32 1).length ∧
    c1FinalState.downloaded.length < (requiredKeys witnessTm witnessSrs 32 1).length :=
  c1_fail_fast witnessTm witnessSrs 32 1 c1Script (fun _ => false) 6 false
    c1FinalState c1WitnessRunEq (by simp [c1FinalState])

theorem clampTile_mono (n : Int) {a b : Int} (hab : a ≤ b) :
    clampTile n a ≤ clampTile n b := by
  unfold clampTile
  exact max_le_max le_rfl (min_le_min hab le_rfl)

theorem getTileX_mono_or_anti (tm : TiledMapM) (level : Nat) :
    Monotone (fun x => tm.getTileX x level) ∨
    Antitone (fun x => tm.getTileX x level) := by
  rcases le_total 0 ((2 * tm.bound)⁻¹) with h | h
  · left
    intro a b hab
    apply clampTile_mono
    apply Int.floor_le_floor
    rw [div_eq_mul_inv, div_eq_mul_inv]
    have h1 : (a + tm.bound) * (2 * tm.bound)⁻¹ ≤ (b + tm.bound) * (2 * tm.bound)⁻¹ :=
      mul_le_mul_of_nonneg_right (by linarith) h
    exact mul_le_mul_of_nonneg_right h1 (by positivity)
  · right
    intro a b hab
    apply clampTile_mono
    apply Int.floor_le_floor
    rw [div_eq_mul_inv, div_eq_mul_inv]
    have h1 : (b + tm.bound) * (2 * tm.bound)⁻¹ ≤ (a + tm.bound) * (2 * tm.bound)⁻¹ := by
      rcases le_total ((a + tm.bound) * (2 * tm.bound)⁻¹)
          ((b + tm.bound) * (2 * tm.bound)⁻¹) with h2 | h2
      · have h3 : ((b + tm.bound) - (a + tm.bound)) * (2 * tm.bound)⁻¹ ≤ 0 :=
          mul_nonpos_of_nonneg_of_nonpos (by linarith) h
        nlinarith [h3]
      · exact h2
    exact mul_le_mul_of_nonneg_right h1 (by positivity)

theorem getTileY_mono_or_anti (tm : TiledMapM) (level : Nat) :
    Monotone (fun y => tm.getTileY y level) ∨
    Antitone (fun y => tm.getTileY y level) := by
  rcases le_total 0 ((2 * tm.bound)⁻¹) with h | h
  · right
    intro a b hab
    apply clampTile_mono
    apply Int.floor_le_floor
    rw [div_eq_mul_inv, div_eq_mul_inv]
    have h1 : (tm.bound - b) * (2 * tm.bound)⁻¹ ≤ (tm.bound - a) * (2 * tm.bound)⁻¹ :=
      mul_le_mul_of_nonneg_right (by linarith) h
    exact mul_le_mul_of_nonneg_right h1 (by positivity)
  · left
    intro a b hab
    apply clampTile_mono
    apply Int.floor_le_floor
    rw [div_eq_mul_inv, div_eq_mul_inv]
    have h1 : (tm.bound - a) * (2 * tm.bound)⁻¹ ≤ (tm.bound - b) * (2 * tm.bound)⁻¹ := by
      have h3 : ((tm.bound - a) - (tm.bound - b)) * (2 * tm.bound)⁻¹ ≤ 0 :=
        mul_nonpos_of_nonneg_of_nonpos (by linarith) h
      nlinarith [h3]
    exact mul_le_mul_of_nonneg_right h1 (by positivity)

theorem between_map (f : ℚ → Int) (hf : Monotone f ∨ Antitone f) {a b z : ℚ}
    (h1 : min a b ≤ z) (h2 : z ≤ max a b) :
    min (f a) (f b) ≤ f z ∧ f z ≤ max (f a) (f b) := by
  rcases hf with hf | hf
  · rcases le_total a b with hab | hab
    · rw [min_eq_left hab] at h1
      rw [max_eq_right hab] at h2
      exact ⟨le_trans (min_le_left _ _) (hf h1), le_trans (hf h2) (le_max_right _ _)⟩
    · rw [min_eq_right hab] at h1
      rw [max_eq_left hab] at h2
      exact ⟨le_trans (min_le_right _ _) (hf h1), le_trans (hf h2) (le_max_left _ _)⟩
  · rcases le_total a b with hab | hab
    · rw [min_eq_left hab] at h1
      rw [max_eq_right hab] at h2
      exact ⟨le_trans (min_le_right _ _) (hf h2), le_trans (hf h1) (le_max_left _ _)⟩
    · rw [min_eq_right hab] at h1
      rw [max_eq_left hab] at h2
      exact ⟨le_trans (min_le_left _ _) (hf h2), le_trans (hf h1) (le_max_right _ _)⟩

theorem getTileX_bounds (tm : TiledMapM) (x : ℚ) (level : Nat) :
    0 ≤ tm.getTileX x level ∧ tm.getTileX x level ≤ 2 ^ level - 1 := by
  have h2 : (0 : Int) < 2 ^ level := pow_pos (by norm_num) level
  unfold TiledMapM.getTileX clampTile
  exact ⟨le_max_left 0 _, max_le (by omega) (min_le_right _ _)⟩

theorem getTileY_bounds (tm : TiledMapM) (y : ℚ) (level : Nat) :
    0 ≤ tm.getTileY y level ∧ tm.getTileY y level ≤ 2 ^ level - 1 := by
  have h2 : (0 : Int) < 2 ^ level := pow_pos (by norm_num) level
  unfold TiledMapM.getTileY clampTile
  exact ⟨le_max_left 0 _, max_le (by omega) (min_le_right _ _)⟩

theorem mem_intRange {lo hi v : Int} : v ∈ intRange lo hi ↔ lo ≤ v ∧ v ≤ hi := by
  unfold intRange
  simp only [List.mem_map, List.mem_range]
  constructor
  · rintro ⟨i, hi2, rfl⟩
    constructor <;> omega
  · rintro ⟨h1, h2⟩
    exact ⟨(v - lo).toNat, by omega, by omega⟩

theorem mem_requiredTiles (tm : TiledMapM) (west south east north wx wy : ℚ)
    (hbx : min west east ≤ wx ∧ wx ≤ max west east)
    (hby : min south north ≤ wy ∧ wy ≤ max south north) :
    tm.getTileXY wx wy (tm.numLevels - 1) ∈
      requiredTiles tm west south east north := by
  unfold requiredTiles
  have hmx := between_map _ (getTileX_mono_or_anti tm (tm.numLevels - 1)) hbx.1 hbx.2
  have hmy := between_map _ (getTileY_mono_or_anti tm (tm.numLevels - 1)) hby.1 hby.2
  have hbx2 := getTileX_bounds tm wx (tm.numLevels - 1)
  have hby2 := getTileY_bounds tm wy (tm.numLevels - 1)
  simp only [List.mem_flatMap, List.mem_map, TiledMapM.getTileXY]
  refine ⟨tm.getTileY wy (tm.numLevels - 1), ?_, tm.getTileX wx (tm.numLevels - 1),
    ?_, rfl⟩
  · rw [mem_intRange]
    constructor
    · exact max_le (by omega) hby2.1
    · exact le_min (by omega) hby2.2
  · rw [mem_intRange]
    constructor
    · exact max_le (by omega) hbx2.1
    · exact le_min (by omega) hbx2.2

theorem processRound_none_keys (g : Nat) (l : List Tile)
    (h : (processRound g l).finisher = none) :
    (processRound g l).pending.map Tile.key = l.map Tile.key := by
  rw [(processRound_cases g l).1 h, tickSeq_keys]

theorem processRound_true_keys (g : Nat) (l : List Tile) (t : Tile)
    (h : (processRound g l).finisher = some (t, true)) :
    (t.key ::ₘ ((processRound g l).pending.map Tile.key : Multiset (Int × Int × Nat))) =
      (l.map Tile.key : Multiset (Int × Int × Nat)) := by
  obtain ⟨l1, t0, l2, hsplit, hval, hpend⟩ := (processRound_cases g l).2.1 t h
  subst hsplit
  rw [hpend]
  have hkey : t.key = t0.key := by rw [hval, tickOnce_key]
  rw [hkey]
  rw [show ((tickSeq g l1).2 ++ l2).map Tile.key =
      l1.map Tile.key ++ l2.map Tile.key by rw [List.map_append, tickSeq_keys]]
  rw [show (l1 ++ t0 :: l2).map Tile.key =
      l1.map Tile.key ++ t0.key :: l2.map Tile.key by rw [List.map_append]; rfl]
  rw [Multiset.cons_coe]
  exact Multiset.coe_eq_coe.mpr (List.perm_middle.symm)

theorem loadLoop_keys (uc : Nat → Bool) (fuel : Nat) :
    ∀ (round : Nat) (st res : SchedState),
    loadLoop uc fuel round st = some res →
    ((res.downloaded.map Tile.key : Multiset (Int × Int × Nat)) +
        (res.pending.map Tile.key : Multiset (Int × Int × Nat))) ≤
      ((st.downloaded.map Tile.key : Multiset (Int × Int × Nat)) +
        (st.pending.map Tile.key : Multiset (Int × Int × Nat))) := by
  induction fuel with
  | zero =>
      intro round st res hrun
      simp [loadLoop] at hrun
  | succ fuel ih =>
      intro round st res hrun
      rw [loadLoop] at hrun
      cases hp : st.pending.isEmpty with
      | true =>
          rw [hp] at hrun
          simp only [if_true] at hrun
          obtain rfl : st = res := by simpa using hrun
          exact le_rfl
      | false =>
          rw [hp] at hrun
          simp only [Bool.false_eq_true, if_false] at hrun
          cases huc : uc round with
          | true =>
              rw [huc] at hrun
              simp only [if_true] at hrun
              obtain rfl : st = res := by simpa using hrun
              exact le_rfl
          | false =>
              rw [huc] at hrun
              simp only [Bool.false_eq_true, if_false] at hrun
              rcases hfin : (processRound st.g st.pending).finisher with _ | ⟨t, ok⟩
              · rw [hfin] at hrun
                dsimp only at hrun
                refine le_trans (ih (round + 1) _ res hrun) ?_
                rw [processRound_none_keys st.g st.pending hfin]
              · cases ok with
                | true =>
                    rw [hfin] at hrun
                    dsimp only at hrun
                    refine le_trans (ih (round + 1) _ res hrun) ?_
                    have hk := processRound_true_keys st.g st.pending t hfin
                    dsimp only
                    rw [List.map_append]
                    rw [show ((st.downloaded.map Tile.key ++ [t].map Tile.key :
                        List (Int × Int × Nat)) : Multiset (Int × Int × Nat)) =
                      (st.downloaded.map Tile.key : Multiset (Int × Int × Nat)) +
                        ([t.key] : Multiset (Int × Int × Nat)) by
                        rw [← Multiset.coe_add]; rfl]
                    rw [add_assoc]
                    rw [show (([t.key] : Multiset (Int × Int × Nat)) +
                        ((processRound st.g st.pending).pending.map Tile.key :
                          Multiset (Int × Int × Nat))) =
                      (t.key ::ₘ ((processRound st.g st.pending).pending.map Tile.key :
                        Multiset (Int × Int × Nat))) by
                        simp]
                    rw [hk]
                | false =>
                    rw [hfin] at hrun
                    dsimp only at hrun
                    refine le_trans (ih (round + 1) _ res hrun) ?_
                    dsimp only
                    simp only [List.map_nil, Multiset.coe_nil, add_zero]
                    exact le_add_right (le_refl _)

theorem loadLoop_success_keys (uc : Nat → Bool) (fuel round g0 : Nat)
    (tiles : List Tile) (res : SchedState)
    (hrun : loadLoop uc fuel round
      { g := g0, pending := tiles, downloaded := [], cancelled := [],
        failedTiles := [] } = some res)
    (hok : tiles.length ≤ res.downloaded.length) :
    (res.downloaded.map Tile.key : Multiset (Int × Int × Nat)) =
      (tiles.map Tile.key : Multiset (Int × Int × Nat)) := by
  have hle := loadLoop_keys uc fuel round _ res hrun
  dsimp only at hle
  simp only [List.map_nil, Multiset.coe_nil, zero_add] at hle
  have hle2 : (res.downloaded.map Tile.key : Multiset (Int × Int × Nat)) ≤
      (tiles.map Tile.key : Multiset (Int × Int × Nat)) :=
    le_trans (Multiset.le_add_right _ _) hle
  have hcard : Multiset.card ((tiles.map Tile.key : List _) :
      Multiset (Int × Int × Nat)) ≤
      Multiset.card ((res.downloaded.map Tile.key : List _) :
        Multiset (Int × Int × Nat)) := by
    simp only [Multiset.coe_card, List.length_map]
    exact hok
  exact Multiset.eq_of_le_of_card_le hle2 hcard

/-- C10: when LoadElevationData has succeeded for the same build settings
and tile source, every output grid cell of ReprojectData whose projection
to WebMercator succeeds yields, through GetTileXY, a tile key that belongs
to the downloaded set, so GetTile returns a tile and the unguarded
dereference of the lookup result is safe.  The projection collaborator is
opaque; the hypotheses record that the cell projection lies between the
two corner projections on each WebMercator axis, which holds for the
per-axis monotone Mercator map on the grid cells. -/
theorem c10_lookup_safe (tm : TiledMapM) (srs : ℚ × ℚ → Option (ℚ × ℚ))
    (radius quadSize : ℚ) (script : Int × Int → TileScript)
    (uc : Nat → Bool) (fuel : Nat) (ok : Bool) (st : SchedState)
    (hrun : loadElevationDataM tm srs radius quadSize script uc fuel = some (ok, st))
    (hok : ok = true)
    (x y : Int) (wx wy west south east north : ℚ)
    (hproj : srs ((x : ℚ) * quadSize, (y : ℚ) * quadSize) = some (wx, wy))
    (hws : srs (-(((getNumVerticesForRadius radius quadSize).1 : ℚ) * quadSize),
        ((getNumVerticesForRadius radius quadSize).1 : ℚ) * quadSize) =
      some (west, south))
    (hen : srs ((((getNumVerticesForRadius radius quadSize).1 : ℚ) * quadSize),
        -(((getNumVerticesForRadius radius quadSize).1 : ℚ) * quadSize)) =
      some (east, north))
    (hbx : min west east ≤ wx ∧ wx ≤ max west east)
    (hby : min south north ≤ wy ∧ wy ≤ max south north) :
    getTileM st.downloaded (tm.getTileXY wx wy (tm.numLevels - 1))
      (tm.numLevels - 1) ≠ none := by
  subst hok
  unfold loadElevationDataM at hrun
  unfold requiredKeys at hrun
  dsimp only at hrun
  rw [hws, hen] at hrun
  dsimp only at hrun
  rcases hloop : loadLoop uc fuel 0
      { g := 0,
        pending := (requiredTiles tm west south east north).map
          (fun k => ({ x := k.1, y := k.2, z := tm.numLevels - 1,
                       script := script k } : Tile)),
        downloaded := [], cancelled := [], failedTiles := [] } with _ | st2
  · rw [hloop] at hrun
    simp at hrun
  · rw [hloop] at hrun
    dsimp only at hrun
    obtain ⟨hok2, hst⟩ : _ ∧ st2 = st := by simpa using hrun
    subst hst
    have hlen : ((requiredTiles tm west south east north).map
        (fun k => ({ x := k.1, y := k.2, z := tm.numLevels - 1,
                     script := script k } : Tile))).length ≤
        st2.downloaded.length := by
      simpa using hok2
    have hkeys := loadLoop_success_keys uc fuel 0 0 _ st2 hloop hlen
    have hmemkeys : (tm.getTileX wx (tm.numLevels - 1),
        tm.getTileY wy (tm.numLevels - 1), tm.numLevels - 1) ∈
        st2.downloaded.map Tile.key := by
      rw [← Multiset.mem_coe, hkeys, Multiset.mem_coe]
      have hmem := mem_requiredTiles tm west south east north wx wy hbx hby
      simp only [List.map_map, List.mem_map]
      refine ⟨tm.getTileXY wx wy (tm.numLevels - 1), hmem, ?_⟩
      rfl
    obtain ⟨u, hu, hukey⟩ := List.mem_map.mp hmemkeys
    unfold getTileM
    intro hnone
    rw [List.find?_eq_none] at hnone
    refine hnone u hu ?_
    unfold Tile.key at hukey
    unfold TiledMapM.getTileXY
    obtain ⟨h1, h2, h3⟩ : u.x = tm.getTileX wx (tm.numLevels - 1) ∧
        u.y = tm.getTileY wy (tm.numLevels - 1) ∧ u.z = tm.numLevels - 1 := by
      have := hukey
      simp only [Prod.mk.injEq] at this
      exact ⟨this.1, this.2.1, this.2.2⟩
    simp [h1, h2, h3]

theorem c10WitnessRunEq :
    loadElevationDataM witnessTm witnessSrs 32 1 c10Script (fun _ => false) 6 =
      some (true, c10FinalState) := by
  unfold loadElevationDataM
  simp only [witnessSrsEq]
  rw [witnessKeysEq]
  decide

/-- C10 witness: in the concrete four-tile job that fully succeeds, the
tile lookup for the projected origin cell returns a tile. -/
theorem c10_lookup_safe_witness :
    getTileM c10FinalState.downloaded
      (witnessTm.getTileXY 0 0 (witnessTm.numLevels - 1))
      (witnessTm.numLevels - 1) ≠ none :=
  c10_lookup_safe witnessTm witnessSrs 32 1 c10Script (fun _ => false) 6 true
    c10FinalState c10WitnessRunEq rfl 0 0 0 0 0 0 0 0 rfl rfl rfl
    (by norm_num) (by norm_num)

/-! ### Rasterizer lemmas -/

theorem processLayers_all_empty (n : Int) (quadSize halfGauge : ℚ)
    (acc : List (Nat → Nat)) (layers : List (List PolyM))
    (hacc : acc ≠ []) (hl : ∀ l ∈ layers, l = []) :
    processLayers n quadSize halfGauge acc layers =
      acc ++ layers.map (fun _ => Function.update (fun _ => 0) 0 1) := by
  induction layers generalizing acc with
  | nil => simp [processLayers]
  | cons l ls ih =>
      have hl0 : l = [] := hl l (List.mem_cons_self l ls)
      subst hl0
      rw [processLayers]
      split
      · rename_i hq
        rw [List.isEmpty_iff] at hq
        exact absurd hq hacc
      · split
        · rw [ih (acc ++ [Function.update (fun _ => 0) 0 1]) (by simp)
            (fun u hu => hl u (List.mem_cons_of_mem _ hu))]
          simp
        · rename_i hq
          simp at hq

/-- C8 counterexample: in a two-layer job whose non-base layer has no
matching polygons, the non-base layer weight at cell 0 is the marker value
1, not 0 as the claim states. -/
theorem c8_counterexample_marker_cell :
    ((createLandscapeLayers 1 1 1 [[], []]).getD 1 (fun _ => 0)) 0 = 1 ∧
    (1 : Nat) ≠ 0 := by
  constructor
  · decide
  · decide

/-- C8 amended: in a job where no non-base layer has matching polygons,
the base layer weight is 255 at every cell, and every other layer weight
is 0 at every cell except the first cell (corner pixel 0), which is
force-set to the marker value 1 to keep the layer registered. -/
theorem c8_base_layer_only (n : Int) (quadSize gauge : ℚ)
    (layers : List (List PolyM)) (hne : layers ≠ [])
    (hempty : ∀ l ∈ layers.tail, l = []) :
    (∀ px, (createLandscapeLayers n quadSize gauge layers).headI px = 255) ∧
    (∀ layer ∈ (createLandscapeLayers n quadSize gauge layers).tail,
      layer 0 = 1 ∧ ∀ px, px ≠ 0 → layer px = 0) := by
  obtain ⟨l0, ls, rfl⟩ : ∃ l0 ls, layers = l0 :: ls := by
    cases layers with
    | nil => exact absurd rfl hne
    | cons a b => exact ⟨a, b, rfl⟩
  unfold createLandscapeLayers
  rw [processLayers]
  split
  · rw [processLayers_all_empty n quadSize (gauge * osmToCentimeters * (1 / 2))
      [fun _ => 255] ls (by simp) (by simpa using hempty)]
    constructor
    · intro px
      rfl
    · intro layer hlayer
      simp only [List.singleton_append, List.tail_cons, List.mem_map] at hlayer
      obtain ⟨-, -, rfl⟩ := hlayer
      refine ⟨rfl, fun px hpx => ?_⟩
      rw [Function.update_noteq hpx]
  · rename_i hq
    simp at hq

/-- C8 witness: in the concrete two-layer job with an empty non-base
layer, the base layer weight at pixel 5 is 255. -/
theorem c8_base_layer_only_witness :
    (createLandscapeLayers 1 1 1 [[], []]).headI 5 = 255 :=
  (c8_base_layer_only 1 1 1 [[], []] (by simp) (by simp)).1 5

theorem pixelIndex_ne (n a b x y : Int)
    (ha : -n ≤ a) (ha2 : a ≤ n - 1) (hb : -n ≤ b) (hb2 : b ≤ n - 1)
    (hx : -n ≤ x) (hx2 : x < n) (hy : -n ≤ y) (hy2 : y < n)
    (hne : (a, b) ≠ (x, y)) : pixelIndex n a b ≠ pixelIndex n x y := by
  intro heq
  apply hne
  have hn : (0 : Int) < n := by omega
  have e1 : (0 : Int) ≤ (b + n) * (2 * n) + a + n := by nlinarith
  have e2 : (0 : Int) ≤ (y + n) * (2 * n) + x + n := by nlinarith
  have heq2 : (b + n) * (2 * n) + a + n = (y + n) * (2 * n) + x + n := by
    unfold pixelIndex at heq
    omega
  have h3 : (b - y) * (2 * n) = x - a := by linear_combination heq2
  have hb_eq : b = y := by
    rcases lt_trichotomy (b - y) 0 with h | h | h
    · have h4 : (b - y) * (2 * n) ≤ -1 * (2 * n) :=
        mul_le_mul_of_nonneg_right (by omega) (by omega)
      omega
    · omega
    · have h4 : 1 * (2 * n) ≤ (b - y) * (2 * n) :=
        mul_le_mul_of_nonneg_right (by omega) (by omega)
      omega
  have ha_eq : a = x := by
    subst hb_eq
    simp only [sub_self, zero_mul] at h3
    omega
  rw [ha_eq, hb_eq]

theorem intRange_nodup (lo hi : Int) : (intRange lo hi).Nodup := by
  unfold intRange
  exact (List.nodup_range _).map (fun i j hij => by omega)

theorem boxCells_mem_grid (n : Int) (halfGauge : ℚ) (p : PolyM) (c : Int × Int)
    (hc : c ∈ boxCells n halfGauge p) :
    -n ≤ c.1 ∧ c.1 ≤ n - 1 ∧ -n ≤ c.2 ∧ c.2 ≤ n - 1 := by
  unfold boxCells polyBox at hc
  simp only [List.mem_flatMap, List.mem_map] at hc
  obtain ⟨ty, hty, tx, htx, rfl⟩ := hc
  rw [mem_intRange] at hty htx
  exact ⟨le_trans (le_max_left _ _) htx.1, le_trans htx.2 (min_le_left _ _),
    le_trans (le_max_left _ _) hty.1, le_trans hty.2 (min_le_left _ _)⟩

theorem boxCells_nodup (n : Int) (halfGauge : ℚ) (p : PolyM) :
    (boxCells n halfGauge p).Nodup := by
  unfold boxCells
  rw [List.nodup_flatMap]
  constructor
  · intro ty _
    exact (intRange_nodup _ _).map (fun a b hab => by simpa using hab)
  · have hnd := intRange_nodup (polyBox n halfGauge p).1.2 (polyBox n halfGauge p).2.2
    refine List.Pairwise.imp ?_ hnd
    intro a b hab
    intro z hza hzb
    simp only [List.mem_map] at hza hzb
    obtain ⟨u, -, rfl⟩ := hza
    obtain ⟨v, -, hzv⟩ := hzb
    have h1 : b = a := by simpa using congrArg Prod.snd hzv
    exact hab h1.symm

theorem applyPolyCell_not_cond (n : Int) (quadSize halfGauge : ℚ) (p : PolyM)
    (c : Int × Int) (st : (Nat → Nat) × List (Nat → Nat))
    (h : paintCond quadSize halfGauge p c.1 c.2 = false) :
    applyPolyCell n quadSize halfGauge p c st = st := by
  unfold applyPolyCell
  rw [h]
  simp

theorem applyPolyCell_read_ne (n : Int) (quadSize halfGauge : ℚ) (p : PolyM)
    (c : Int × Int) (st : (Nat → Nat) × List (Nat → Nat)) (px : Nat)
    (hne : pixelIndex n c.1 c.2 ≠ px) :
    readsAt (applyPolyCell n quadSize halfGauge p c st) px = readsAt st px := by
  unfold applyPolyCell
  split
  · unfold readsAt
    dsimp only
    rw [Function.update_noteq (Ne.symm hne)]
    rw [List.map_map]
    congr 1
    apply List.map_congr_left
    intro layer _
    exact Function.update_noteq (Ne.symm hne) _ _
  · rfl

theorem applyPolyCell_read_eq (n : Int) (quadSize halfGauge : ℚ) (p : PolyM)
    (x y : Int) (st : (Nat → Nat) × List (Nat → Nat))
    (h : paintCond quadSize halfGauge p x y = true) :
    readsAt (applyPolyCell n quadSize halfGauge p (x, y) st) (pixelIndex n x y) =
      (paintWeight quadSize halfGauge p x y,
       (readsAt st (pixelIndex n x y)).2.map
         (rescaleWeight (paintWeight quadSize halfGauge p x y))) := by
  unfold applyPolyCell
  rw [h]
  simp only [if_true]
  unfold readsAt
  dsimp only
  rw [Function.update_same]
  rw [List.map_map, List.map_map]
  congr 1
  apply List.map_congr_left
  intro layer _
  exact Function.update_same _ _ _

theorem foldCells_read_preserve (n : Int) (quadSize halfGauge : ℚ) (p : PolyM)
    (px : Nat) (L : List (Int × Int)) :
    ∀ (st : (Nat → Nat) × List (Nat → Nat)),
    (∀ c ∈ L, pixelIndex n c.1 c.2 ≠ px ∨
      paintCond quadSize halfGauge p c.1 c.2 = false) →
    readsAt (L.foldl (fun s c => applyPolyCell n quadSize halfGauge p c s) st) px =
      readsAt st px := by
  induction L with
  | nil => intro st _; rfl
  | cons c rest ih =>
      intro st h
      rw [List.foldl_cons]
      rw [ih _ (fun d hd => h d (List.mem_cons_of_mem c hd))]
      rcases h c (List.mem_cons_self c rest) with hne | hcond
      · exact applyPolyCell_read_ne n quadSize halfGauge p c st px hne
      · rw [applyPolyCell_not_cond n quadSize halfGauge p c st hcond]

theorem applyPoly_read_not_touch (n : Int) (quadSize halfGauge : ℚ) (p : PolyM)
    (x y : Int) (st : (Nat → Nat) × List (Nat → Nat))
    (hx : -n ≤ x ∧ x < n) (hy : -n ≤ y ∧ y < n)
    (ht : touchesB n quadSize halfGauge p (x, y) = false) :
    readsAt (applyPoly n quadSize halfGauge st p) (pixelIndex n x y) =
      readsAt st (pixelIndex n x y) := by
  unfold applyPoly
  apply foldCells_read_preserve
  intro c hc
  by_cases hcx : c = (x, y)
  · subst hcx
    right
    have ht2 : (x, y) ∈ boxCells n halfGauge p →
        paintCond quadSize halfGauge p x y = false := by simpa [touchesB] using ht
    exact ht2 hc
  · left
    obtain ⟨h1, h2, h3, h4⟩ := boxCells_mem_grid n halfGauge p c hc
    exact pixelIndex_ne n c.1 c.2 x y h1 h2 h3 h4 hx.1 hx.2 hy.1 hy.2
      (by simpa [Prod.ext_iff] using hcx)

theorem applyPoly_read_touch (n : Int) (quadSize halfGauge : ℚ) (p : PolyM)
    (x y : Int) (st : (Nat → Nat) × List (Nat → Nat))
    (hx : -n ≤ x ∧ x < n) (hy : -n ≤ y ∧ y < n)
    (ht : touchesB n quadSize halfGauge p (x, y) = true) :
    readsAt (applyPoly n quadSize halfGauge st p) (pixelIndex n x y) =
      (paintWeight quadSize halfGauge p x y,
       (readsAt st (pixelIndex n x y)).2.map
         (rescaleWeight (paintWeight quadSize halfGauge p x y))) := by
  obtain ⟨hmem, hcond⟩ : (x, y) ∈ boxCells n halfGauge p ∧
      paintCond quadSize halfGauge p x y = true := by
    simpa [touchesB] using ht
  obtain ⟨s, t2, hsplit⟩ := List.append_of_mem hmem
  have hnd := boxCells_nodup n halfGauge p
  rw [hsplit] at hnd
  have hnots : (x, y) ∉ s := by
    intro hin
    rcases List.nodup_append.mp hnd with ⟨-, -, hdisj⟩
    exact hdisj hin (List.mem_cons_self _ _)
  have hnott : (x, y) ∉ t2 := by
    rcases List.nodup_append.mp hnd with ⟨-, hnd2, -⟩
    exact (List.nodup_cons.mp hnd2).1
  have hsub : ∀ c, c ∈ s ∨ c ∈ t2 → c ∈ boxCells n halfGauge p := by
    intro c hc
    rw [hsplit]
    rcases hc with hc | hc
    · exact List.mem_append_left _ hc
    · exact List.mem_append_right _ (List.mem_cons_of_mem _ hc)
  have hgridne : ∀ c, c ∈ s ∨ c ∈ t2 → c ≠ (x, y) →
      pixelIndex n c.1 c.2 ≠ pixelIndex n x y := by
    intro c hc hcne
    obtain ⟨h1, h2, h3, h4⟩ := boxCells_mem_grid n halfGauge p c (hsub c hc)
    exact pixelIndex_ne n c.1 c.2 x y h1 h2 h3 h4 hx.1 hx.2 hy.1 hy.2
      (by simpa [Prod.ext_iff] using hcne)
  unfold applyPoly
  rw [hsplit, List.foldl_append, List.foldl_cons]
  rw [foldCells_read_preserve n quadSize halfGauge p _ t2 _
    (fun c hc => Or.inl (hgridne c (Or.inr hc)
      (fun hceq => hnott (hceq ▸ hc))))]
  rw [applyPolyCell_read_eq n quadSize halfGauge p x y _ hcond]
  rw [foldCells_read_preserve n quadSize halfGauge p _ s _
    (fun c hc => Or.inl (hgridne c (Or.inl hc)
      (fun hceq => hnots (hceq ▸ hc))))]

theorem countP_le_one_cases {α : Type} (q : α → Bool) (l : List α)
    (h : l.countP q ≤ 1) :
    (∀ a ∈ l, q a = false) ∨
    ∃ s a t2, l = s ++ a :: t2 ∧ q a = true ∧
      (∀ b ∈ s, q b = false) ∧ (∀ b ∈ t2, q b = false) := by
  induction l with
  | nil => left; intro a ha; simp at ha
  | cons a rest ih =>
      cases hq : q a with
      | true =>
          right
          rw [List.countP_cons_of_pos q rest (by simp [hq])] at h
          have hz : rest.countP q = 0 := by omega
          refine ⟨[], a, rest, rfl, hq, by simp, ?_⟩
          intro b hb
          have hnb := List.countP_eq_zero.mp hz b hb
          exact Bool.eq_false_iff.mpr hnb
      | false =>
          rw [List.countP_cons_of_neg q rest (by simp [hq])] at h
          rcases ih h with hall | ⟨s, a0, t2, hsplit, hq0, hs, ht2⟩
          · left
            intro b hb
            rcases List.mem_cons.mp hb with hb | hb
            · subst hb; exact hq
            · exact hall b hb
          · right
            refine ⟨a :: s, a0, t2, by simp [hsplit], hq0, ?_, ht2⟩
            intro b hb
            rcases List.mem_cons.mp hb with hb | hb
            · subst hb; exact hq
            · exact hs b hb

theorem floor_one_half : ⌊(1 : ℚ) / 2⌋ = 0 := by
  rw [Int.floor_eq_zero_iff, Set.mem_Ico]
  constructor <;> norm_num

theorem floor_int_add_half (z : Int) : ⌊(z : ℚ) + 1 / 2⌋ = z := by
  rw [Int.floor_int_add, floor_one_half, add_zero]

theorem paintWeight_le (quadSize halfGauge : ℚ) (p : PolyM) (x y : Int) :
    paintWeight quadSize halfGauge p x y ≤ 255 := by
  unfold paintWeight
  have h1 : ∀ z : Int, (min 255 z).toNat ≤ 255 := by
    intro z
    have h2 := min_le_left (255 : Int) z
    omega
  exact h1 _

theorem rescaleWeight_255 (w : Nat) (hw : w ≤ 255) :
    rescaleWeight w 255 = 255 - w := by
  unfold rescaleWeight roundToInt
  rw [show (255 - (w : ℚ)) / 255 * (255 : Nat) = ((255 - (w : Int) : Int) : ℚ) by
    push_cast
    ring]
  rw [floor_int_add_half]
  omega

theorem rescaleWeight_0 (w : Nat) : rescaleWeight w 0 = 0 := by
  unfold rescaleWeight roundToInt
  rw [show (255 - (w : ℚ)) / 255 * (0 : Nat) = ((0 : Int) : ℚ) by push_cast; ring]
  rw [floor_int_add_half]
  rfl

theorem foldPolys_read_none (n : Int) (quadSize halfGauge : ℚ) (x y : Int)
    (hx : -n ≤ x ∧ x < n) (hy : -n ≤ y ∧ y < n) (polys : List PolyM) :
    ∀ (st : (Nat → Nat) × List (Nat → Nat)),
    (∀ p ∈ polys, touchesB n quadSize halfGauge p (x, y) = false) →
    readsAt (polys.foldl (applyPoly n quadSize halfGauge) st) (pixelIndex n x y) =
      readsAt st (pixelIndex n x y) := by
  induction polys with
  | nil => intro st _; rfl
  | cons p rest ih =>
      intro st h
      rw [List.foldl_cons]
      rw [ih _ (fun u hu => h u (List.mem_cons_of_mem p hu))]
      exact applyPoly_read_not_touch n quadSize halfGauge p x y st hx hy
        (h p (List.mem_cons_self p rest))

theorem foldPolys_read_single (n : Int) (quadSize halfGauge : ℚ) (x y : Int)
    (hx : -n ≤ x ∧ x < n) (hy : -n ≤ y ∧ y < n)
    (s t2 : List PolyM) (p0 : PolyM) (st : (Nat → Nat) × List (Nat → Nat))
    (h0 : touchesB n quadSize halfGauge p0 (x, y) = true)
    (hs : ∀ p ∈ s, touchesB n quadSize halfGauge p (x, y) = false)
    (ht2 : ∀ p ∈ t2, touchesB n quadSize halfGauge p (x, y) = false) :
    readsAt ((s ++ p0 :: t2).foldl (applyPoly n quadSize halfGauge) st)
        (pixelIndex n x y) =
      (paintWeight quadSize halfGauge p0 x y,
       (readsAt st (pixelIndex n x y)).2.map
         (rescaleWeight (paintWeight quadSize halfGauge p0 x y))) := by
  rw [List.foldl_append, List.foldl_cons]
  rw [foldPolys_read_none n quadSize halfGauge x y hx hy t2 _ ht2]
  rw [applyPoly_read_touch n quadSize halfGauge p0 x y _ hx hy h0]
  rw [foldPolys_read_none n quadSize halfGauge x y hx hy s st hs]

theorem processLayers_sum_preserved (n : Int) (quadSize halfGauge : ℚ) (x y : Int)
    (hx : -n ≤ x ∧ x < n) (hy : -n ≤ y ∧ y < n) (layers : List (List PolyM)) :
    ∀ (acc : List (Nat → Nat)), acc ≠ [] →
    (∀ l ∈ layers, l ≠ []) →
    (∀ p ∈ layers.flatMap id, touchesB n quadSize halfGauge p (x, y) = false) →
    ((processLayers n quadSize halfGauge acc layers).map
        (fun layer => layer (pixelIndex n x y))).sum =
      (acc.map (fun layer => layer (pixelIndex n x y))).sum := by
  induction layers with
  | nil => intro acc _ _ _; rfl
  | cons polys rest ih =>
      intro acc hacc hne hnot
      rw [processLayers]
      split
      · rename_i hq
        rw [List.isEmpty_iff] at hq
        exact absurd hq hacc
      · split
        · rename_i hq
          rw [List.isEmpty_iff] at hq
          exact absurd hq (hne polys (List.mem_cons_self _ _))
        · dsimp only
          have hfold := foldPolys_read_none n quadSize halfGauge x y hx hy polys
            ((fun _ => 0 : Nat → Nat), acc)
            (fun p hp => hnot p (List.mem_flatMap.mpr
              ⟨polys, List.mem_cons_self _ _, by simpa using hp⟩))
          have h1 := congrArg Prod.fst hfold
          have h2 := congrArg Prod.snd hfold
          unfold readsAt at h1 h2
          dsimp only at h1 h2
          rw [ih _ (by simp)
            (fun u hu => hne u (List.mem_cons_of_mem _ hu))
            (fun p hp => hnot p (List.mem_flatMap.mpr
              (by
                obtain ⟨l2, hl2, hpl2⟩ := List.mem_flatMap.mp hp
                exact ⟨l2, List.mem_cons_of_mem _ hl2, hpl2⟩)))]
          rw [List.map_append, List.sum_append]
          rw [h2]
          simp [h1]

theorem processLayers_sum_single (n : Int) (quadSize halfGauge : ℚ) (x y : Int)
    (hx : -n ≤ x ∧ x < n) (hy : -n ≤ y ∧ y < n) (layers : List (List PolyM)) :
    ∀ (acc : List (Nat → Nat)), acc ≠ [] →
    acc.map (fun layer => layer (pixelIndex n x y)) =
      255 :: List.replicate (acc.length - 1) 0 →
    (∀ l ∈ layers, l ≠ []) →
    (layers.flatMap id).countP (fun p => touchesB n quadSize halfGauge p (x, y)) ≤ 1 →
    ((processLayers n quadSize halfGauge acc layers).map
        (fun layer => layer (pixelIndex n x y))).sum = 255 := by
  induction layers with
  | nil =>
      intro acc _ hreads _ _
      rw [processLayers, hreads]
      simp [List.sum_replicate]
  | cons polys rest ih =>
      intro acc hacc hreads hne hcount
      have hlen1 : 1 ≤ acc.length := List.length_pos.mpr hacc
      rw [processLayers]
      split
      · rename_i hq
        rw [List.isEmpty_iff] at hq
        exact absurd hq hacc
      · split
        · rename_i hq
          rw [List.isEmpty_iff] at hq
          exact absurd hq (hne polys (List.mem_cons_self _ _))
        · dsimp only
          have hcount2 : polys.countP
                (fun p => touchesB n quadSize halfGauge p (x, y)) +
              (rest.flatMap id).countP
                (fun p => touchesB n quadSize halfGauge p (x, y)) ≤ 1 := by
            rw [← List.countP_append]
            rw [show polys ++ rest.flatMap id = (polys :: rest).flatMap id by
              simp [List.flatMap_cons]]
            exact hcount
          rcases countP_le_one_cases _ polys
              (le_trans (Nat.le_add_right _ _) hcount2) with
            hall | ⟨s, p0, t2, hsplit, hq0, hs, ht2⟩
          · -- this layer does not paint the target cell
            have hfold := foldPolys_read_none n quadSize halfGauge x y hx hy polys
              ((fun _ => 0 : Nat → Nat), acc) hall
            have h1 := congrArg Prod.fst hfold
            have h2 := congrArg Prod.snd hfold
            unfold readsAt at h1 h2
            dsimp only at h1 h2
            apply ih
            · simp
            · rw [List.map_append, h2, hreads]
              have hl2 : (List.foldl (applyPoly n quadSize halfGauge)
                  ((fun _ => 0 : Nat → Nat), acc) polys).2.length = acc.length := by
                have := congrArg List.length h2
                simpa using this
              simp only [List.map_cons, List.map_nil, h1]
              rw [List.cons_append]
              rw [show List.replicate (acc.length - 1) 0 ++ [0] =
                List.replicate (acc.length - 1 + 1) 0 by
                  rw [List.replicate_succ']]
              simp [hl2]
              omega
            · exact fun u hu => hne u (List.mem_cons_of_mem _ hu)
            · omega
          · -- exactly one polygon of this layer paints the target cell
            rw [hsplit]
            have hfold := foldPolys_read_single n quadSize halfGauge x y hx hy
              s t2 p0 ((fun _ => 0 : Nat → Nat), acc) hq0 hs ht2
            have h1 := congrArg Prod.fst hfold
            have h2 := congrArg Prod.snd hfold
            unfold readsAt at h1 h2
            dsimp only at h1 h2
            have hw := paintWeight_le quadSize halfGauge p0 x y
            have hrest : ∀ p ∈ rest.flatMap id,
                touchesB n quadSize halfGauge p (x, y) = false := by
              have hpos : 1 ≤ polys.countP
                  (fun p => touchesB n quadSize halfGauge p (x, y)) := by
                rw [hsplit, List.countP_append,
                  List.countP_cons_of_pos _ _ (by simp [hq0])]
                omega
              have hz : (rest.flatMap id).countP
                  (fun p => touchesB n quadSize halfGauge p (x, y)) = 0 := by omega
              intro p hp
              exact Bool.eq_false_iff.mpr (List.countP_eq_zero.mp hz p hp)
            rw [processLayers_sum_preserved n quadSize halfGauge x y hx hy rest _
              (by simp) (fun u hu => hne u (List.mem_cons_of_mem _ hu)) hrest]
            rw [List.map_append, List.sum_append]
            rw [h2, hreads]
            simp only [List.map_cons, List.map_nil, h1, List.map_replicate]
            rw [rescaleWeight_255 _ hw, rescaleWeight_0]
            simp [List.sum_replicate]
            omega

theorem c2PolyA_box : boxCells 1 (1 / 2) c2PolyA = [(0, 0)] := by
  unfold boxCells polyBox c2PolyA
  dsimp only
  rw [show (1 : ℚ) / 2 - 1 / 2 = 0 by norm_num, show (1 : ℚ) / 2 + 1 / 2 = 1 by norm_num]
  rw [Int.floor_zero, Int.ceil_one]
  decide

theorem c2PolyB_box : boxCells 1 (1 / 2) c2PolyB = [(0, 0)] := by
  unfold boxCells polyBox c2PolyB
  dsimp only
  rw [show (1 : ℚ) / 2 - 1 / 2 = 0 by norm_num, show (1 : ℚ) / 2 + 1 / 2 = 1 by norm_num]
  rw [Int.floor_zero, Int.ceil_one]
  decide

theorem c2PolyA_touch : touchesB 1 1 (1 / 2) c2PolyA (0, 0) = true := by
  unfold touchesB
  rw [c2PolyA_box]
  unfold paintCond c2PolyA
  dsimp only
  norm_num

theorem c2PolyB_touch : touchesB 1 1 (1 / 2) c2PolyB (0, 0) = true := by
  unfold touchesB
  rw [c2PolyB_box]
  unfold paintCond c2PolyB
  dsimp only
  norm_num

theorem c2PolyA_weight : paintWeight 1 (1 / 2) c2PolyA 0 0 = 255 := by
  unfold paintWeight c2PolyA
  dsimp only
  rw [if_pos (by norm_num [smallNumber])]
  rw [if_pos (by rw [decide_eq_true_eq]; norm_num [Prod.ext_iff, osmToCentimeters])]
  unfold roundToInt
  rw [show (255 : ℚ) * (1 / 2 / (1 / 2) * (1 / 2) + 1 / 2) = ((255 : Int) : ℚ) by
    norm_num]
  rw [floor_int_add_half]
  decide

theorem c2PolyB_weight : paintWeight 1 (1 / 2) c2PolyB 0 0 = 128 := by
  unfold paintWeight c2PolyB
  dsimp only
  rw [if_pos (by norm_num [smallNumber])]
  rw [if_pos (by rw [decide_eq_true_eq]; norm_num [Prod.ext_iff, osmToCentimeters])]
  unfold roundToInt
  rw [show (255 : ℚ) * (0 / (1 / 2) * (1 / 2) + 1 / 2) + 1 / 2 = ((128 : Int) : ℚ) by
    norm_num]
  rw [Int.floor_intCast]
  decide

theorem c2RunBEq :
    sumWeights (createLandscapeLayers 1 1 (1 / 100) [[], [c2PolyA, c2PolyB]]) 3 = 128 := by
  unfold createLandscapeLayers
  dsimp only
  rw [show (1 / 100 : ℚ) * osmToCentimeters * (1 / 2) = 1 / 2 by
    norm_num [osmToCentimeters]]
  rw [processLayers]
  split
  · rw [processLayers]
    split
    · rename_i hq
      simp at hq
    · split
      · rename_i hq
        simp at hq
      · dsimp only
        rw [processLayers]
        unfold sumWeights
        have hfold : readsAt (List.foldl (applyPoly 1 1 (1 / 2))
            ((fun _ => 0 : Nat → Nat), [fun _ => 255]) [c2PolyA, c2PolyB])
            (pixelIndex 1 0 0) = (128, [0]) := by
          rw [List.foldl_cons, List.foldl_cons, List.foldl_nil]
          rw [applyPoly_read_touch 1 1 (1 / 2) c2PolyB 0 0 _
            (by norm_num) (by norm_num) c2PolyB_touch]
          rw [applyPoly_read_touch 1 1 (1 / 2) c2PolyA 0 0 _
            (by norm_num) (by norm_num) c2PolyA_touch]
          rw [c2PolyA_weight, c2PolyB_weight]
          unfold readsAt
          dsimp only
          rw [show ([fun _ => 255] : List (Nat → Nat)).map
              (fun layer => layer (pixelIndex 1 0 0)) = [255] from rfl]
          rw [show ([255] : List Nat).map (rescaleWeight 255) =
            [rescaleWeight 255 255] from rfl]
          rw [rescaleWeight_255 255 le_rfl]
          rw [show (255 - 255 : Nat) = 0 from rfl]
          rw [show ([0] : List Nat).map (rescaleWeight 128) =
            [rescaleWeight 128 0] from rfl]
          rw [rescaleWeight_0]
        have h1 := congrArg Prod.fst hfold
        have h2 := congrArg Prod.snd hfold
        unfold readsAt at h1 h2
        dsimp only at h1 h2
        rw [List.foldl_cons, List.foldl_cons, List.foldl_nil] at h1 h2
        rw [show (3 : Nat) = pixelIndex 1 0 0 by decide]
        rw [List.map_append, List.sum_append]
        rw [List.foldl_cons, List.foldl_cons, List.foldl_nil]
        rw [h2]
        simp only [List.map_cons, List.map_nil, List.sum_cons, List.sum_nil]
        rw [h1]
        omega
  · rename_i hq
    simp at hq

/-- C2 counterexample: the claimed per-cell tolerance fails on the code in
two concrete jobs.  With three layers where both non-base layers have no
polygons, both marker writes land on cell 0, whose weights sum to 257.
With one non-base layer containing two overlapping polygons, the second
polygon repaints the cell with weight 128 after the first already zeroed
the base layer, so the cell weights sum to 128.  Both totals are outside
255 plus or minus 1. -/
theorem c2_counterexample_sum_tolerance :
    sumWeights (createLandscapeLayers 1 1 1 [[], [], []]) 0 = 257 ∧
    sumWeights (createLandscapeLayers 1 1 (1 / 100) [[], [c2PolyA, c2PolyB]]) 3 = 128 ∧
    ¬(254 ≤ 257 ∧ 257 ≤ 256) ∧ ¬(254 ≤ 128 ∧ 128 ≤ 256) := by
  refine ⟨by decide, c2RunBEq, by omega, by omega⟩

/-- C2 amended: the blend-weight sum invariant holds in the form the code
actually guarantees: when every non-base layer has at least one polygon
(so no marker cells are written) and no output cell satisfies the paint
condition of more than one polygon across all non-base layers (so no cell
is repainted), the per-layer weights at every output grid cell sum to
exactly 255 — in particular within the claimed 255 plus or minus 1. -/
theorem c2_weights_sum_255 (n : Int) (quadSize gauge : ℚ)
    (layers : List (List PolyM)) (hbase : layers ≠ [])
    (hnonempty : ∀ l ∈ layers.tail, l ≠ [])
    (hsingle : ∀ c : Int × Int,
      ((layers.tail.flatMap id).countP
        (fun p => touchesB n quadSize (gauge * osmToCentimeters * (1 / 2)) p c)) ≤ 1)
    (x y : Int) (hx : -n ≤ x ∧ x < n) (hy : -n ≤ y ∧ y < n) :
    sumWeights (createLandscapeLayers n quadSize gauge layers)
      (pixelIndex n x y) = 255 := by
  obtain ⟨l0, ls, rfl⟩ : ∃ l0 ls, layers = l0 :: ls := by
    cases layers with
    | nil => exact absurd rfl hbase
    | cons a b => exact ⟨a, b, rfl⟩
  unfold createLandscapeLayers sumWeights
  rw [processLayers]
  split
  · exact processLayers_sum_single n quadSize (gauge * osmToCentimeters * (1 / 2))
      x y hx hy ls [fun _ => 255] (by simp) (by simp)
      (by simpa using hnonempty) (by simpa using hsingle (x, y))
  · rename_i hq
    simp at hq

/-- C2 witness: a two-layer job whose single polygon paints the cell
(0, 0): the weights at that cell sum to exactly 255. -/
theorem c2_weights_sum_255_witness :
    sumWeights (createLandscapeLayers 1 1 (1 / 100) [[], [c2PolyA]])
      (pixelIndex 1 0 0) = 255 :=
  c2_weights_sum_255 1 1 (1 / 100) [[], [c2PolyA]] (List.cons_ne_nil _ _)
    (by intro l hl; simp only [List.tail_cons, List.mem_singleton] at hl;
        subst hl; exact List.cons_ne_nil _ _)
    (fun c => le_trans (List.countP_le_length _) (by simp))
    0 0 (by norm_num) (by norm_num)

/-- C7 witness: a cell whose pixel location (1, 5) is within 2 pixels of
the left edge of a present 256x256 tile receives the sentinel 32768. -/
theorem c7_edge_and_domain_sentinel_witness :
    reprojectCell 256 256 0 1 (fun _ => true) (fun _ => 0)
      (some { tileXY := (0, 0), pixel := (1, 5) }) = some (some 32768) :=
  (c7_edge_and_domain_sentinel 256 256 0 1 (fun _ => true) (fun _ => 0)
      (some { tileXY := (0, 0), pixel := (1, 5) })).2
    { tileXY := (0, 0), pixel := (1, 5) } rfl rfl (Or.inl (by norm_num))

end StreetMapVerify
